import Mathlib

/-!
Shallow embedding of the review/revision workflow engine of the
Raivcoo review app (Next.js + Supabase server actions), together with
proofs about the claims of its specification.

Sources embedded here:
- `app/review/[trackId]/actions.ts` (comment mutations, round transitions,
  the `[LINK:n]` text encoder with the substring guard);
- `app/dashboard/projects/[id]/actions.ts` (editor-side step mutations,
  the variant of the encoder with the `(?<!\[LINK:)` look-behind and `\b`);
- the helper `renderPlainTextWithUrls` (placeholder decoder).

Strings are modelled as `List Char` in the core text transforms (with
`String` wrappers matching the source signatures); machine concerns such
as JS number formatting are modelled explicitly (`ratDecimalText`).
All definitions are structural (fuel where the source loops consume more
than one character per step) so that concrete runs reduce in the kernel.
-/

namespace Raivcoo

/-- The JS RegExp `\s` whitespace class (space separators, tab, line
terminators, NBSP, BOM), as used by the URL regexes of the source. -/
def jsSpace (c : Char) : Bool :=
  c == ' ' || c == '\t' || c == '\n' || c == '\r' ||
  c.toNat == 11 || c.toNat == 12 ||
  c.toNat == 0xa0 || c.toNat == 0x1680 ||
  (0x2000 ≤ c.toNat && c.toNat ≤ 0x200a) ||
  c.toNat == 0x2028 || c.toNat == 0x2029 || c.toNat == 0x202f ||
  c.toNat == 0x205f || c.toNat == 0x3000 || c.toNat == 0xfeff

/-- A character that terminates the URL body in `[^\s<>"]+`. -/
def urlStop (c : Char) : Bool :=
  jsSpace c || c == '<' || c == '>' || c == '"'

def schemeHttps : List Char := ['h', 't', 't', 'p', 's', ':', '/', '/']

def schemeHttp : List Char := ['h', 't', 't', 'p', ':', '/', '/']

/-- One attempt of the regex `https?:\/\/[^\s<>"]+` at the head of `l`:
the scheme (preferring the `s` alternative, exactly as the backtracking
engine does), then the greedy non-empty body. -/
def matchUrlHere (l : List Char) : Option (List Char) :=
  if l.take 8 = schemeHttps then
    let body := (l.drop 8).takeWhile (fun c => !urlStop c)
    if body = [] then none else some (schemeHttps ++ body)
  else if l.take 7 = schemeHttp then
    let body := (l.drop 7).takeWhile (fun c => !urlStop c)
    if body = [] then none else some (schemeHttp ++ body)
  else none

/-- Global scan of `text.matchAll(urlRegex)` for the plain regex
`(https?:\/\/[^\s<>"]+)/g`: at each position try the regex; on a match
record `(index, match)` and continue after it, otherwise advance one
character.  The fuel argument (instantiated with the text length) makes
the recursion structural; each step consumes at least one character. -/
def scanUrlsF : Nat → List Char → Nat → List (Nat × List Char)
  | 0, _, _ => []
  | _ + 1, [], _ => []
  | fuel + 1, c :: rest, i =>
    match matchUrlHere (c :: rest) with
    | some tok => (i, tok) :: scanUrlsF fuel (rest.drop (tok.length - 1)) (i + tok.length)
    | none => scanUrlsF fuel rest (i + 1)

/-- `Array.from(text.matchAll(/(https?:\/\/[^\s<>"]+)/g))`, as index/match
pairs. -/
def urlMatches (t : List Char) : List (Nat × List Char) :=
  scanUrlsF t.length t 0

/-- First occurrence of `pat` in a list, split as `(before, after)`;
`none` when `pat` does not occur.  This is the search underlying the JS
`String.prototype.replace(pat, _)` with a string pattern. -/
def splitFirstOcc (pat : List Char) : List Char → Option (List Char × List Char)
  | [] => if pat = [] then some ([], []) else none
  | c :: rest =>
    if pat = (c :: rest).take pat.length then
      some ([], (c :: rest).drop pat.length)
    else
      match splitFirstOcc pat rest with
      | some (pre, post) => some (c :: pre, post)
      | none => none

/-- JS `s.replace(pat, rep)` with a plain-string pattern and a
replacement containing no `$` patterns: replace the first occurrence. -/
def replaceFirst (s pat rep : List Char) : List Char :=
  match splitFirstOcc pat s with
  | some (pre, post) => pre ++ rep ++ post
  | none => s

/-- Decimal digits of a natural number, most significant first
(JS number-to-string for the non-negative integers used as link
indices).  Fuel-structural; `natDecimal` instantiates the fuel. -/
def natDecimalF : Nat → Nat → List Char
  | 0, n => [Nat.digitChar (n % 10)]
  | fuel + 1, n =>
    if n < 10 then [Nat.digitChar n]
    else natDecimalF fuel (n / 10) ++ [Nat.digitChar (n % 10)]

def natDecimal (n : Nat) : List Char := natDecimalF n n

/-- The template literal `` `[LINK:${i}]` ``. -/
def lbTag : List Char := ['[', 'L', 'I', 'N', 'K', ':']

def phChars (i : Nat) : List Char := lbTag ++ natDecimal i ++ [']']

/-- JS `Array.prototype.findIndex` specialised to equality with `u`. -/
def jsFindIndex : List (List Char) → List Char → Option Nat
  | [], _ => none
  | v :: rest, u => if v = u then some 0 else (jsFindIndex rest u).map (· + 1)

/-- One step of the `urlMatches.forEach` body of
`detectAndExtractLinks` in `app/review/[trackId]/actions.ts` /
the helpers file: skip the match when the six characters of the original
text before it are `[LINK:`; otherwise de-duplicate the URL into the
accumulator (`links.findIndex`) and replace the first occurrence of the
URL in the processed text by its placeholder. -/
def encodeStep (orig : List Char) (st : List Char × List (List Char))
    (m : Nat × List Char) : List Char × List (List Char) :=
  if (orig.drop (m.1 - 6)).take (min m.1 6) = lbTag then st
  else
    match jsFindIndex st.2 m.2 with
    | some k => (replaceFirst st.1 m.2 (phChars k), st.2)
    | none => (replaceFirst st.1 m.2 (phChars st.2.length), st.2 ++ [m.2])

/-- Core of `detectAndExtractLinks` (review actions / helpers variant):
returns the processed text and the extracted URLs in first-appearance
order (each stored link has `text = url`, see the wrapper). -/
def detectCore (t : List Char) : List Char × List (List Char) :=
  (urlMatches t).foldl (encodeStep t) (t, [])

/-- A link record `{ url, text }`. -/
structure Link where
  url : String
  text : String
deriving DecidableEq, Repr

/-- Result shape `{ processedText, links }` of both encoder variants. -/
structure ExtractResult where
  processedText : String
  links : List Link
deriving DecidableEq, Repr

/-- `detectAndExtractLinks` from `app/review/[trackId]/actions.ts`
(also the identical copy in the helpers file): regex
`(https?:\/\/[^\s<>"]+)/g`, the `[LINK:` substring guard on the original
text, first-match de-duplication by exact URL, placeholder substitution
by first occurrence. -/
def detectAndExtractLinks (text : String) : ExtractResult :=
  let r := detectCore text.toList
  { processedText := r.1.asString
    links := r.2.map (fun u => { url := u.asString, text := u.asString }) }

/-- Word characters for the JS `\b` boundary: `[A-Za-z0-9_]`. -/
def wordChar (c : Char) : Bool :=
  ('a' ≤ c && c ≤ 'z') || ('A' ≤ c && c ≤ 'Z') || ('0' ≤ c && c ≤ '9') || c == '_'

/-- Global scan for the dashboard-actions regex
`(?<!\[LINK:)(\bhttps?:\/\/[^\s<>"]+)/g`: same token shape, but the
match position must sit at a word boundary and must not be preceded by
the literal `[LINK:`.  `done` holds the already-scanned characters in
reverse, so the look-behind reads its first six characters. -/
def scanUrlsDbF : Nat → List Char → List Char → List (List Char)
  | 0, _, _ => []
  | _ + 1, _, [] => []
  | fuel + 1, done, c :: rest =>
    match matchUrlHere (c :: rest) with
    | some tok =>
      if (match done.head? with | some p => wordChar p | none => false) then
        scanUrlsDbF fuel (c :: done) rest
      else if done.take 6 = [':', 'K', 'N', 'I', 'L', '['] then
        scanUrlsDbF fuel (c :: done) rest
      else
        tok :: scanUrlsDbF fuel (tok.reverse ++ done) (rest.drop (tok.length - 1))
    | none => scanUrlsDbF fuel (c :: done) rest

/-- `detectAndExtractLinks` from `app/dashboard/projects/[id]/actions.ts`
(look-behind variant); its `forEach` body has no separate guard because
the regex already excludes `[LINK:`-preceded matches. -/
def detectAndExtractLinksDb (text : String) : ExtractResult :=
  let toks := scanUrlsDbF text.toList.length [] text.toList
  let r := toks.foldl
    (fun st url =>
      match jsFindIndex st.2 url with
      | some k => (replaceFirst st.1 url (phChars k), st.2)
      | none => (replaceFirst st.1 url (phChars st.2.length), st.2 ++ [url]))
    (text.toList, ([] : List (List Char)))
  { processedText := r.1.asString
    links := r.2.map (fun u => { url := u.asString, text := u.asString }) }

def isDigitChar (c : Char) : Bool := 48 ≤ c.toNat && c.toNat ≤ 57

/-- `parseInt(digits, 10)` on a run of decimal digits. -/
def digitsToNat (l : List Char) : Nat :=
  l.foldl (fun a c => a * 10 + (c.toNat - 48)) 0

/-- One attempt of the regex `\[LINK:(\d+)\]` at the head of `l`:
returns the parsed index and the length of the whole match. -/
def phMatchHere (l : List Char) : Option (Nat × Nat) :=
  if l.take 6 = lbTag then
    let ds := (l.drop 6).takeWhile isDigitChar
    if ds = [] then none
    else
      match (l.drop (6 + ds.length)).head? with
      | some c => if c = ']' then some (digitsToNat ds, ds.length + 7) else none
      | none => none
  else none

/-- The global replace of `renderPlainTextWithUrls`: scan left to right
for `\[LINK:(\d+)\]`; a match is replaced by `links[i].url` when that
entry exists and its url is truthy, and kept verbatim otherwise. -/
def decodeScanF (links : List (List Char)) : Nat → List Char → List Char
  | 0, _ => []
  | _ + 1, [] => []
  | fuel + 1, c :: rest =>
    match phMatchHere (c :: rest) with
    | some (idx, len) =>
      let kept :=
        match links[idx]? with
        | some u => if u = [] then (c :: rest).take len else u
        | none => (c :: rest).take len
      kept ++ decodeScanF links fuel (rest.drop (len - 1))
    | none => c :: decodeScanF links fuel rest

def decodeScan (links : List (List Char)) (l : List Char) : List Char :=
  decodeScanF links l.length l

/-- `renderPlainTextWithUrls(rawText, links)` from the helpers file:
empty/undefined text renders as `""`, an empty/missing link list leaves
the text untouched, otherwise every `[LINK:n]` placeholder is replaced
by the n-th link's url. -/
def renderPlainTextWithUrls (rawText : String) (links : List Link) : String :=
  if rawText = "" then ""
  else if links.length = 0 then rawText
  else (decodeScan (links.map (fun k => k.url.toList)) rawText.toList).asString

/-! ## Generic JS helpers used across the actions -/

/-- JS `String.prototype.trim` on a character list (removes the `\s`
class from both ends). -/
def trimChars (l : List Char) : List Char :=
  ((l.dropWhile jsSpace).reverse.dropWhile jsSpace).reverse

/-- JS `text.trim()`. -/
def jsTrim (s : String) : String := (trimChars s.toList).asString

/-- JS truthiness of an optional string (`undefined`/`null`/`""` are
falsy). -/
def strTruthy (o : Option String) : Bool :=
  match o with
  | some v => v != ""
  | none => false

/-- JS `a || d` for an optional string against a string default. -/
def jsOrDefault (o : Option String) (d : String) : String :=
  match o with
  | some v => if v == "" then d else v
  | none => d

/-- JS `a || b` where both sides are optional strings. -/
def jsOrOpt (a b : Option String) : Option String :=
  if strTruthy a then a else b

/-- JS object spread per field: the second operand wins when its key is
present. -/
def optOrElse (a b : Option α) : Option α :=
  match a with
  | some v => some v
  | none => b

/-- `list.map((x, i) => f(i, x))`. -/
def mapWithIdx (f : Nat → α → β) : Nat → List α → List β
  | _, [] => []
  | i, x :: xs => f i x :: mapWithIdx f (i + 1) xs

/-- Byte-wise (code-point) lexicographic comparison, the order Postgres
uses on the text values produced by `->>`. -/
def lexLt : List Char → List Char → Bool
  | [], [] => false
  | [], _ :: _ => true
  | _ :: _, [] => false
  | a :: xs, b :: ys =>
    if a.toNat < b.toNat then true
    else if b.toNat < a.toNat then false
    else lexLt xs ys

def insertByKey (key : α → List Char) (x : α) : List α → List α
  | [] => [x]
  | y :: ys => if lexLt (key x) (key y) then x :: y :: ys else y :: insertByKey key x ys

/-- Stable ascending sort by a textual key (insertion sort). -/
def sortByKey (key : α → List Char) (l : List α) : List α :=
  l.foldr (insertByKey key) []

/-- The text Postgres produces for a JSON number stored via the JS
client: JS numbers serialize in shortest decimal form (`2`, `10.5`,
`0.05`), and `jsonb ->> field` renders that numeric value back as text.
Computed from `num`/`den` with plain `Nat` arithmetic; rationals without
a finite decimal expansion cannot arise from JSON numbers and get a
fraction rendering. -/
def ratDecimalChars (q : ℚ) : List Char :=
  let n := q.num.natAbs
  let d := q.den
  let digits :=
    match (List.range 40).find? (fun k => 10 ^ k % d = 0) with
    | none => natDecimal n ++ ['/'] ++ natDecimal d
    | some k =>
      if k = 0 then natDecimal n
      else
        let ds := natDecimal (n * (10 ^ k / d))
        let ds := if ds.length ≤ k then List.replicate (k + 1 - ds.length) '0' ++ ds else ds
        ds.take (ds.length - k) ++ ['.'] ++ ds.drop (ds.length - k)
  if q.num < 0 then '-' :: digits else digits

/-- JS `Promise.all`: the collected results, or the first rejection. -/
def promiseAll : List (Except String α) → Except String (List α)
  | [] => Except.ok []
  | Except.error e :: _ => Except.error e
  | Except.ok a :: rest =>
    match promiseAll rest with
    | Except.ok xs => Except.ok (a :: xs)
    | Except.error e => Except.error e

/-! ## Data model (Supabase rows as read/written by the actions) -/

/-- Authenticated Supabase user (`supabase.auth.getUser()`). -/
structure User where
  id : String
deriving DecidableEq, Repr

structure EditorProfile where
  id : String
  user_id : String
deriving DecidableEq, Repr

structure Project where
  id : String
  editor_id : String
  status : String
deriving DecidableEq, Repr

/-- The `comment` JSONB of a `review_comments` row. -/
structure CommentData where
  text : String
  timestamp : ℚ
  images : List String
  links : List Link
deriving DecidableEq, Repr

structure ReviewComment where
  id : String
  track_id : String
  comment : CommentData
  commenter_name : String
  commenter_id : Option String
  created_at : String
deriving DecidableEq, Repr

/-- The persisted `metadata` of a step (wire shape of §6; absent keys are
`none`). -/
structure StepMetadata where
  type : Option String
  comment_id : Option String
  text : Option String
  timestamp : Option ℚ
  images : Option (List String)
  links : Option (List Link)
  created_at : Option String
  step_index : Option Nat
deriving DecidableEq, Repr

/-- A persisted step; a missing `is_final` key is JS-falsy, so it is
modelled as `false`. -/
structure Step where
  name : Option String
  status : String
  is_final : Bool
  deliverable_link : Option String
  metadata : Option StepMetadata
deriving DecidableEq, Repr

structure Track where
  id : String
  project_id : String
  round_number : Nat
  status : String
  client_decision : String
  steps : List Step
  final_deliverable_media_type : Option String
  updated_at : String
deriving DecidableEq, Repr

/-- The persistence gateway: the relational rows the actions read and
write. -/
structure Store where
  projects : List Project
  editor_profiles : List EditorProfile
  project_tracks : List Track
  review_comments : List ReviewComment
deriving DecidableEq, Repr

def findTrack (s : Store) (trackId : String) : Option Track :=
  s.project_tracks.find? (fun t => t.id == trackId)

def findProject (s : Store) (projectId : String) : Option Project :=
  s.projects.find? (fun p => p.id == projectId)

def findComment (s : Store) (commentId : String) : Option ReviewComment :=
  s.review_comments.find? (fun c => c.id == commentId)

def findProfile (s : Store) (userId : String) : Option EditorProfile :=
  s.editor_profiles.find? (fun p => p.user_id == userId)

def updateTrack (s : Store) (trackId : String) (f : Track → Track) : Store :=
  { s with project_tracks := s.project_tracks.map (fun t => if t.id == trackId then f t else t) }

def updateProject (s : Store) (projectId : String) (f : Project → Project) : Store :=
  { s with projects := s.projects.map (fun p => if p.id == projectId then f p else p) }

/-- `.from("review_comments").select(...).eq("track_id", id)` followed by
`.order("comment->>timestamp", { ascending: true })`.  PostgREST's `->>`
operator extracts the JSON value **as text**, so the rows come back in
lexicographic order of the decimal rendering of the timestamp (the
display pages use `comment->timestamp`, which orders by the JSON value
instead). -/
def commentsOrderedByTimestampText (s : Store) (trackId : String) : List ReviewComment :=
  sortByKey (fun c => ratDecimalChars c.comment.timestamp)
    (s.review_comments.filter (fun c => c.track_id == trackId))

instance {ε α : Type} [DecidableEq ε] [DecidableEq α] : DecidableEq (Except ε α) := fun a b =>
  match a, b with
  | Except.ok x, Except.ok y =>
    if h : x = y then isTrue (by rw [h]) else isFalse (by intro hc; cases hc; exact h rfl)
  | Except.error e, Except.error f =>
    if h : e = f then isTrue (by rw [h]) else isFalse (by intro hc; cases hc; exact h rfl)
  | Except.ok _, Except.error _ => isFalse (by intro hc; cases hc)
  | Except.error _, Except.ok _ => isFalse (by intro hc; cases hc)

/-- Result of one server action: the outcome, the resulting persisted
state (unchanged when the action throws before reaching its write), and
how many upload network calls were dispatched to the image host. -/
structure Out where
  res : Except String Unit
  store : Store
  calls : Nat
deriving DecidableEq, Repr

/-! ## Image pipeline -/

structure ImageFile where
  name : String
  size : Nat
  contentType : String
deriving DecidableEq, Repr

def MAX_IMAGES_PER_COMMENT : Nat := 4

def IMAGE_MAX_SIZE_BYTES : Nat := 5 * 1024 * 1024

def ACCEPTED_IMAGE_TYPES : List String := ["image/jpeg", "image/png", "image/webp"]

/-- `uploadImageToImgBB(fileBuffer, fileName, contentType)`: size and
content-type validation run before the `fetch`; `host` stands for the
ImgBB endpoint and the returned pair counts the network calls made (0
when validation rejects the file, 1 when the request is dispatched). -/
def uploadImageToImgBB (host : ImageFile → String) (f : ImageFile) :
    Except String String × Nat :=
  if IMAGE_MAX_SIZE_BYTES < f.size then
    (Except.error ("File \"" ++ f.name ++ "\" size exceeds 5MB limit."), 0)
  else if !(ACCEPTED_IMAGE_TYPES.contains f.contentType) then
    (Except.error ("File \"" ++ f.name ++ "\" has an invalid type. Only JPEG, PNG, WebP allowed."), 0)
  else
    (Except.ok (host f), 1)

/-- The `newImageFiles.filter(f => f.size > 0).map(upload)` batch used by
the comment/step update actions, dispatched concurrently
(`Promise.all`): every file of the batch is dispatched, the first
rejection wins, and the calls of the whole batch are counted. -/
def uploadFiltered (host : ImageFile → String) (files : List ImageFile) :
    Except String (List String) × Nat :=
  let rs := (files.filter (fun f => 0 < f.size)).map (uploadImageToImgBB host)
  (promiseAll (rs.map Prod.fst), (rs.map Prod.snd).sum)

/-! ## Review-page actions (`app/review/[trackId]/actions.ts`) -/

/-- `(user && user.id === comment.commenter_id) || (!comment.commenter_id && !user)`. -/
def isOwnComment (user : Option User) (commenterId : Option String) : Bool :=
  (match user, commenterId with
   | some u, some cid => u.id == cid
   | _, _ => false)
  || (commenterId.isNone && user.isNone)

/-- `addReviewComment(formData)`.  `timestampGiven` models the presence
of the `timestamp` form field and `timestamp` its parsed value (a NaN
parse is out of scope of the claims); `newCommentId`/`now` stand for the
row id and `created_at` the database generates. -/
def addReviewComment (host : ImageFile → String) (s : Store) (user : Option User)
    (trackId : String) (timestampGiven : Bool) (timestamp : ℚ)
    (commentText : String) (commenterNameRaw : String)
    (imageFiles : List ImageFile) (links : Option (List Link))
    (newCommentId : String) (now : String) : Out :=
  let commenterName := if commenterNameRaw == "" then "Anonymous Visitor" else commenterNameRaw
  if trackId == "" || !timestampGiven then
    ⟨Except.error "Required data missing.", s, 0⟩
  else if jsTrim commentText == "" && imageFiles.isEmpty then
    ⟨Except.error "Comment cannot be empty.", s, 0⟩
  else if timestamp < 0 then
    ⟨Except.error "Invalid timestamp.", s, 0⟩
  else if MAX_IMAGES_PER_COMMENT < imageFiles.length then
    ⟨Except.error "Max 4 images.", s, 0⟩
  else
    match findTrack s trackId with
    | none => ⟨Except.error "Track not found.", s, 0⟩
    | some trackData =>
      if trackData.client_decision != "pending" then
        ⟨Except.error ("Decision (" ++ trackData.client_decision ++ ") submitted."), s, 0⟩
      else
        let fileResults := imageFiles.map (fun f =>
          if f.size = 0 then ((Except.ok none : Except String (Option String)), 0)
          else
            match uploadImageToImgBB host f with
            | (Except.ok u, n) => (Except.ok (some u), n)
            | (Except.error e, n) => (Except.error e, n))
        let calls := (fileResults.map Prod.snd).sum
        match promiseAll (fileResults.map Prod.fst) with
        | Except.error e => ⟨Except.error e, s, calls⟩
        | Except.ok opts =>
          let uploadedImageUrls := opts.filterMap id
          let commentDataToSave : CommentData :=
            { text := jsTrim commentText
              timestamp := timestamp
              images := uploadedImageUrls
              links := match links with | some ls => ls | none => [] }
          let newComment : ReviewComment :=
            { id := newCommentId
              track_id := trackId
              comment := commentDataToSave
              commenter_name := commenterName
              commenter_id := user.map User.id
              created_at := now }
          ⟨Except.ok (), { s with review_comments := s.review_comments ++ [newComment] }, calls⟩

/-- `updateReviewComment(formData)`.  `newCommentText = none` models the
form field being `null`; `existingImages = none` models a missing or
empty `existingImages` payload (its JSON parse is assumed well-formed,
which is all the claims need). -/
def updateReviewComment (host : ImageFile → String) (s : Store) (user : Option User)
    (commentId : String) (newCommentText : Option String)
    (existingImages : Option (List String)) (commenterName : String)
    (newImageFiles : List ImageFile) : Out :=
  if commentId == "" || newCommentText.isNone || existingImages.isNone then
    ⟨Except.error "Required data missing.", s, 0⟩
  else
    let imagesToKeep := existingImages.getD []
    match findComment s commentId with
    | none => ⟨Except.error "Comment/track not found.", s, 0⟩
    | some commentData =>
      match findTrack s commentData.track_id with
      | none => ⟨Except.error "Comment/track not found.", s, 0⟩
      | some track =>
        if !isOwnComment user commentData.commenter_id then
          ⟨Except.error "You can only edit your own comments.", s, 0⟩
        else if track.client_decision != "pending" then
          ⟨Except.error ("Decision (" ++ track.client_decision ++ ") submitted."), s, 0⟩
        else
          let afterUploads : Except String (List String) × Nat :=
            if newImageFiles.isEmpty then (Except.ok [], 0)
            else if MAX_IMAGES_PER_COMMENT < imagesToKeep.length + newImageFiles.length then
              (Except.error "Cannot save comment: Exceeds maximum of 4 images.", 0)
            else uploadFiltered host newImageFiles
          match afterUploads with
          | (Except.error e, calls) => ⟨Except.error e, s, calls⟩
          | (Except.ok uploadedNewImageUrls, calls) =>
            let finalImageUrls := imagesToKeep ++ uploadedNewImageUrls
            let r := detectAndExtractLinks (jsTrim (newCommentText.getD ""))
            let updatedCommentJsonb : CommentData :=
              { commentData.comment with
                  text := r.processedText
                  links := r.links
                  images := finalImageUrls }
            if updatedCommentJsonb.text == "" && updatedCommentJsonb.images.isEmpty then
              ⟨Except.error "Cannot save comment with no text and no images.", s, calls⟩
            else
              let newName :=
                if commenterName != "" && commenterName != commentData.commenter_name then
                  commenterName
                else commentData.commenter_name
              let updated : ReviewComment :=
                { commentData with comment := updatedCommentJsonb, commenter_name := newName }
              ⟨Except.ok (),
                { s with review_comments :=
                    s.review_comments.map (fun c => if c.id == commentId then updated else c) },
                calls⟩

/-- `deleteReviewComment(commentId)`. -/
def deleteReviewComment (s : Store) (user : Option User) (commentId : String) : Out :=
  if commentId == "" then
    ⟨Except.error "Comment ID missing.", s, 0⟩
  else
    match findComment s commentId with
    | none => ⟨Except.error "Comment/track not found.", s, 0⟩
    | some commentData =>
      match findTrack s commentData.track_id with
      | none => ⟨Except.error "Comment/track not found.", s, 0⟩
      | some track =>
        if !isOwnComment user commentData.commenter_id then
          ⟨Except.error "You can only delete your own comments.", s, 0⟩
        else if track.client_decision != "pending" then
          ⟨Except.error ("Decision (" ++ track.client_decision ++ ") submitted."), s, 0⟩
        else
          ⟨Except.ok (),
            { s with review_comments := s.review_comments.filter (fun c => c.id != commentId) },
            0⟩

/-- Modelled from the spec: the transactional database procedure
`handle_client_revision_request_v3` is not under `src/` (only its caller
is); per §4.3/§6 it atomically sets the current round's
`client_decision` to `revisions_requested` and inserts round `N+1` with
the supplied steps (`pending` decision, fresh `in_progress` track). -/
def handle_client_revision_request_v3 (s : Store) (currentTrackId projectId : String)
    (currentRoundNumber : Nat) (nextRoundSteps : List Step)
    (newTrackId now : String) : Store :=
  let s1 := updateTrack s currentTrackId
    (fun t => { t with client_decision := "revisions_requested", updated_at := now })
  { s1 with project_tracks := s1.project_tracks ++
      [{ id := newTrackId
         project_id := projectId
         round_number := currentRoundNumber + 1
         status := "in_progress"
         client_decision := "pending"
         steps := nextRoundSteps
         final_deliverable_media_type := none
         updated_at := now }] }

/-- `clientRequestRevisions(trackId)`; `newTrackId` stands for the row id
the database generates for round N+1. -/
def clientRequestRevisions (s : Store) (trackId : String)
    (newTrackId now : String) : Out :=
  match findTrack s trackId with
  | none => ⟨Except.error "Track not found.", s, 0⟩
  | some currentTrack =>
    if currentTrack.client_decision != "pending" then
      ⟨Except.error "Decision already submitted.", s, 0⟩
    else
      let commentsData := commentsOrderedByTimestampText s trackId
      let nextRoundSteps :=
        mapWithIdx
          (fun i c =>
            { name := none
              status := "pending"
              is_final := false
              deliverable_link := none
              metadata := some
                { type := some "comment"
                  comment_id := some c.id
                  text := some c.comment.text
                  timestamp := some c.comment.timestamp
                  images := some c.comment.images
                  links := some c.comment.links
                  created_at := some c.created_at
                  step_index := some i } } : Nat → ReviewComment → Step)
          0 commentsData
        ++ [{ name := some "Finish Revisions"
              status := "pending"
              is_final := true
              deliverable_link := none
              metadata := none }]
      ⟨Except.ok (),
        handle_client_revision_request_v3 s trackId currentTrack.project_id
          currentTrack.round_number nextRoundSteps newTrackId now,
        0⟩

/-- Modelled from the spec: the transactional database procedure
`handle_client_approval_v2` is not under `src/`; per §4.3 it atomically
sets `client_decision = "approved"` on the track and flips the owning
project's status (to `completed`). -/
def handle_client_approval_v2 (s : Store) (projectId trackId now : String) : Store :=
  let s1 := updateTrack s trackId
    (fun t => { t with client_decision := "approved", updated_at := now })
  updateProject s1 projectId (fun p => { p with status := "completed" })

/-- `clientApproveProject(projectId, trackId)`. -/
def clientApproveProject (s : Store) (projectId trackId : String) (now : String) : Out :=
  match s.project_tracks.find? (fun t => t.id == trackId && t.project_id == projectId) with
  | none => ⟨Except.error "Track not found or invalid.", s, 0⟩
  | some trackData =>
    if trackData.client_decision != "pending" then
      ⟨Except.error "Decision already submitted.", s, 0⟩
    else
      ⟨Except.ok (), handle_client_approval_v2 s projectId trackId now, 0⟩

/-! ## Dashboard actions (`app/dashboard/projects/[id]/actions.ts`) -/

/-- `updateProjectTrackStepStatus(trackId, stepIndex, newStatus,
linkValue?, finalMediaType?)`.  Note what the source does *not* do: it
never calls `auth.getUser()` and never reads `client_decision`. -/
def updateProjectTrackStepStatus (s : Store) (trackId : String) (stepIndex : Int)
    (newStatus : String) (linkValue : Option String)
    (finalMediaType : Option String) (now : String) : Out :=
  match findTrack s trackId with
  | none => ⟨Except.error "Track not found", s, 0⟩
  | some trackData =>
    let steps := trackData.steps
    if stepIndex < 0 || (steps.length : Int) ≤ stepIndex then
      ⟨Except.error "Invalid step index", s, 0⟩
    else
      match steps[stepIndex.toNat]? with
      | none => ⟨Except.error "Step not found", s, 0⟩
      | some stepToUpdate =>
        let isFinalStep := stepToUpdate.is_final
        let base : Step := { stepToUpdate with status := newStatus }
        let updatedStep :=
          if isFinalStep then
            if newStatus == "completed" && strTruthy linkValue && strTruthy finalMediaType then
              { base with deliverable_link := linkValue }
            else if newStatus == "pending" then
              { base with deliverable_link := none }
            else base
          else base
        let mediaType :=
          if isFinalStep then
            if newStatus == "completed" && strTruthy linkValue && strTruthy finalMediaType then
              finalMediaType
            else if newStatus == "pending" then
              none
            else trackData.final_deliverable_media_type
          else trackData.final_deliverable_media_type
        ⟨Except.ok (),
          updateTrack s trackId (fun t =>
            { t with steps := steps.set stepIndex.toNat updatedStep
                     final_deliverable_media_type := mediaType
                     updated_at := now }),
          0⟩

/-- A descriptor of `newStepsStructure`
(`Omit<Step, "status" | "deliverable_link" | "is_final">`). -/
structure NewStepInfo where
  name : Option String
  metadata : Option StepMetadata
deriving DecidableEq, Repr

def metaCommentId (st : Step) : Option String :=
  st.metadata.bind StepMetadata.comment_id

/-- The `oldStepMap` of `updateTrackStructure`: keyed by `comment_id`
over the non-final steps whose `comment_id` is truthy; `Map.set` makes
the last such step win. -/
def oldStepByCid (steps : List Step) (cid : String) : Option Step :=
  (steps.filter (fun st =>
    !st.is_final && strTruthy (metaCommentId st) && metaCommentId st == some cid)).getLast?

/-- The per-descriptor merge of `updateTrackStructure`: JS spread of the
old metadata then the new one, with `type` and `comment_id` recomputed
by `||`-defaulting. -/
def mergeStructureMeta (oldM newM : Option StepMetadata) : StepMetadata :=
  { type := some (jsOrDefault (oldM.bind StepMetadata.type) "comment")
    comment_id := jsOrOpt (oldM.bind StepMetadata.comment_id) (newM.bind StepMetadata.comment_id)
    text := optOrElse (newM.bind StepMetadata.text) (oldM.bind StepMetadata.text)
    timestamp := optOrElse (newM.bind StepMetadata.timestamp) (oldM.bind StepMetadata.timestamp)
    images := optOrElse (newM.bind StepMetadata.images) (oldM.bind StepMetadata.images)
    links := optOrElse (newM.bind StepMetadata.links) (oldM.bind StepMetadata.links)
    created_at := optOrElse (newM.bind StepMetadata.created_at) (oldM.bind StepMetadata.created_at)
    step_index := optOrElse (newM.bind StepMetadata.step_index) (oldM.bind StepMetadata.step_index) }

/-- The body of the `newStepsStructure.map` of `updateTrackStructure`. -/
def structureStep (originalSteps : List Step) (index : Nat) (info : NewStepInfo) : Step :=
  let oldStep :=
    if strTruthy (info.metadata.bind StepMetadata.comment_id) then
      oldStepByCid originalSteps ((info.metadata.bind StepMetadata.comment_id).getD "")
    else none
  { name := some (jsOrDefault info.name ("Step " ++ (natDecimal (index + 1)).asString))
    status := jsOrDefault (oldStep.map Step.status) "pending"
    is_final := false
    deliverable_link := none
    metadata := some (mergeStructureMeta (oldStep.bind Step.metadata) info.metadata) }

/-- `updateTrackStructure(trackId, newStepsStructure)`. -/
def updateTrackStructure (s : Store) (user : Option User) (trackId : String)
    (newStepsStructure : List NewStepInfo) (now : String) : Out :=
  if trackId == "" then
    ⟨Except.error "Invalid parameters: Track ID and steps array required.", s, 0⟩
  else
    match user with
    | none => ⟨Except.error "Editor not authenticated", s, 0⟩
    | some u =>
      match findProfile s u.id with
      | none => ⟨Except.error "Editor profile not found.", s, 0⟩
      | some editorProfile =>
        match findTrack s trackId with
        | none => ⟨Except.error "Track or associated project not found.", s, 0⟩
        | some track =>
          match findProject s track.project_id with
          | none => ⟨Except.error "Track or associated project not found.", s, 0⟩
          | some project =>
            if project.editor_id != editorProfile.id then
              ⟨Except.error "Unauthorized: Project track does not belong to this editor.", s, 0⟩
            else if track.client_decision != "pending" then
              ⟨Except.error ("Client decision is '" ++ track.client_decision ++ "'. Cannot modify structure."), s, 0⟩
            else
              match track.steps.find? (fun st => st.is_final) with
              | none =>
                ⟨Except.error "Critical error: Track is missing the mandatory 'Finish' step.", s, 0⟩
              | some originalFinishStep =>
                let finalNewSteps :=
                  mapWithIdx (structureStep track.steps) 0 newStepsStructure
                    ++ [originalFinishStep]
                ⟨Except.ok (),
                  updateTrack s trackId (fun t =>
                    { t with steps := finalNewSteps, updated_at := now }),
                  0⟩

/-- `updateStepContent(formData)`.  `stepIndexGiven` models the
`stepIndexString === null` check (a NaN parse is out of claim scope);
`existingImages = none` models an absent/unparsable payload, which the
source replaces by `[]`. -/
def updateStepContent (host : ImageFile → String) (s : Store) (user : Option User)
    (trackId : String) (stepIndexGiven : Bool) (stepIndex : Int)
    (textRaw : String) (existingImages : Option (List String))
    (newImageFiles : List ImageFile) (now : String) : Out :=
  match user with
  | none => ⟨Except.error "Editor not authenticated", s, 0⟩
  | some u =>
    if !stepIndexGiven then
      ⟨Except.error "Missing track ID or step index.", s, 0⟩
    else if stepIndex < 0 then
      ⟨Except.error "Invalid step index.", s, 0⟩
    else
      let textFromEditor := jsTrim textRaw
      let imagesToKeep := existingImages.getD []
      match findTrack s trackId with
      | none => ⟨Except.error "Track or associated project not found.", s, 0⟩
      | some track =>
        match findProject s track.project_id with
        | none => ⟨Except.error "Track or associated project not found.", s, 0⟩
        | some project =>
          let profileOk :=
            match findProfile s u.id with
            | none => false
            | some editorProfile => project.editor_id == editorProfile.id
          if !profileOk then
            ⟨Except.error "Unauthorized: Project track does not belong to this editor.", s, 0⟩
          else if track.client_decision != "pending" then
            ⟨Except.error ("Client has already submitted their decision (" ++ track.client_decision ++ "). Cannot modify step content."), s, 0⟩
          else if (track.steps.length : Int) ≤ stepIndex then
            ⟨Except.error "Invalid step index or steps format issue.", s, 0⟩
          else
            match track.steps[stepIndex.toNat]? with
            | none => ⟨Except.error "Invalid step index or steps format issue.", s, 0⟩
            | some stepToUpdate =>
              if stepToUpdate.is_final then
                ⟨Except.error "The final deliverable step content cannot be edited directly.", s, 0⟩
              else
                let r := detectAndExtractLinksDb textFromEditor
                let afterUploads : Except String (List String) × Nat :=
                  if newImageFiles.isEmpty then (Except.ok [], 0)
                  else if MAX_IMAGES_PER_COMMENT < imagesToKeep.length + newImageFiles.length then
                    (Except.error "Cannot exceed 4 images in total.", 0)
                  else uploadFiltered host newImageFiles
                match afterUploads with
                | (Except.error e, calls) => ⟨Except.error e, s, calls⟩
                | (Except.ok uploadedNewImageUrls, calls) =>
                  let finalImageUrls := imagesToKeep ++ uploadedNewImageUrls
                  let currentMetadata := stepToUpdate.metadata.getD
                    { type := some "comment"
                      comment_id := none
                      text := none
                      timestamp := none
                      images := none
                      links := none
                      created_at := some now
                      step_index := none }
                  let updatedMetadata :=
                    { currentMetadata with
                        text := some r.processedText
                        links := some r.links
                        images := some finalImageUrls }
                  ⟨Except.ok (),
                    updateTrack s trackId (fun t =>
                      { t with
                          steps := track.steps.set stepIndex.toNat
                            { stepToUpdate with metadata := some updatedMetadata }
                          updated_at := now }),
                    calls⟩

/-- Input shape of the `comments` argument of
`deliverInitialRound`/`createInitialRound` (the `links` field of the TS
type is never read by either action). -/
structure InComment where
  text : String
  images : List ImageFile
  links : List Link
deriving DecidableEq, Repr

/-- The per-comment loop of `deliverInitialRound`: per comment a
`Promise.all` over all of its image files (no size filter), aborting the
whole action with a generic message on the first failed batch; each step
is a `completed` comment step. -/
def deliverSteps (host : ImageFile → String) (now : String) :
    List InComment → Nat → Except String (List Step) × Nat
  | [], _ => (Except.ok [], 0)
  | c :: cs, i =>
    let rs := c.images.map (uploadImageToImgBB host)
    let calls := (rs.map Prod.snd).sum
    match promiseAll (rs.map Prod.fst) with
    | Except.error _ => (Except.error "Failed to upload one or more images", calls)
    | Except.ok imageUrls =>
      let r := detectAndExtractLinksDb c.text
      let step : Step :=
        { name := none
          status := "completed"
          is_final := false
          deliverable_link := none
          metadata := some
            { type := some "comment"
              comment_id := none
              text := some r.processedText
              timestamp := none
              images := some imageUrls
              links := some r.links
              created_at := some now
              step_index := some i } }
      match deliverSteps host now cs (i + 1) with
      | (Except.ok rest, n) => (Except.ok (step :: rest), calls + n)
      | (Except.error e, n) => (Except.error e, calls + n)

/-- `deliverInitialRound(trackId, deliverableLink, comments)`. -/
def deliverInitialRound (host : ImageFile → String) (s : Store) (trackId : String)
    (deliverableLink : String) (comments : List InComment) (now : String) : Out :=
  match s.project_tracks.find? (fun t => t.id == trackId && t.round_number == 1) with
  | none => ⟨Except.error "Initial track not found", s, 0⟩
  | some _ =>
    match deliverSteps host now comments 0 with
    | (Except.error e, calls) => ⟨Except.error e, s, calls⟩
    | (Except.ok commentSteps, calls) =>
      let steps := commentSteps ++
        [{ name := none
           status := "completed"
           is_final := true
           deliverable_link := some deliverableLink
           metadata := none }]
      ⟨Except.ok (),
        updateTrack s trackId (fun t =>
          { t with steps := steps, status := "in_review", updated_at := now }),
        calls⟩

/-- The per-comment loop of `createInitialRound`: like `deliverSteps`
but the steps are `pending` and named `Step i+1`. -/
def createSteps (host : ImageFile → String) (now : String) :
    List InComment → Nat → Except String (List Step) × Nat
  | [], _ => (Except.ok [], 0)
  | c :: cs, i =>
    let rs := c.images.map (uploadImageToImgBB host)
    let calls := (rs.map Prod.snd).sum
    match promiseAll (rs.map Prod.fst) with
    | Except.error _ => (Except.error "Failed to upload one or more images", calls)
    | Except.ok imageUrls =>
      let r := detectAndExtractLinksDb c.text
      let step : Step :=
        { name := some ("Step " ++ (natDecimal (i + 1)).asString)
          status := "pending"
          is_final := false
          deliverable_link := none
          metadata := some
            { type := some "comment"
              comment_id := none
              text := some r.processedText
              timestamp := none
              images := some imageUrls
              links := some r.links
              created_at := some now
              step_index := some i } }
      match createSteps host now cs (i + 1) with
      | (Except.ok rest, n) => (Except.ok (step :: rest), calls + n)
      | (Except.error e, n) => (Except.error e, calls + n)

/-- `createInitialRound(projectId, trackId, comments)` (`projectId` is
only used for cache revalidation in the source). -/
def createInitialRound (host : ImageFile → String) (s : Store) (projectId trackId : String)
    (comments : List InComment) (now : String) : Out :=
  let _ := projectId
  match s.project_tracks.find? (fun t => t.id == trackId && t.round_number == 1) with
  | none => ⟨Except.error "Initial track not found", s, 0⟩
  | some _ =>
    match createSteps host now comments 0 with
    | (Except.error e, calls) => ⟨Except.error e, s, calls⟩
    | (Except.ok commentSteps, calls) =>
      let steps := commentSteps ++
        [{ name := some "Finish"
           status := "pending"
           is_final := true
           deliverable_link := none
           metadata := none }]
      ⟨Except.ok (),
        updateTrack s trackId (fun t =>
          { t with steps := steps, status := "in_progress", updated_at := now }),
        calls⟩

/-- The `timestampMap` of `updateAllStepContent`: `comment_id` (truthy)
to `timestamp` (present) over the current steps, last entry winning. -/
def tsMapLookup (steps : List Step) (cid : String) : Option ℚ :=
  ((steps.filter (fun st =>
      strTruthy (metaCommentId st) && metaCommentId st == some cid
        && (st.metadata.bind StepMetadata.timestamp).isSome)).getLast?).bind
    (fun st => st.metadata.bind StepMetadata.timestamp)

/-- The first loop of `updateAllStepContent` (`stepsToProcess`): re-run
link extraction on each referenced step's text and pin its timestamp
(the client-sent value, else the current track's value for the same
`comment_id`, else 0). -/
def processTextSteps (currentSteps : List Step) :
    List Nat → List Step → List Step
  | [], structure' => structure'
  | idx :: rest, structure' =>
    let structure'' :=
      match structure'[idx]? with
      | none => structure'
      | some stepData =>
        match stepData.metadata with
        | none => structure'
        | some md =>
          let r := detectAndExtractLinksDb (md.text.getD "")
          let preservedTimestamp : ℚ :=
            match md.timestamp with
            | some ts => ts
            | none =>
              if strTruthy md.comment_id then
                match tsMapLookup currentSteps (md.comment_id.getD "") with
                | some ts => ts
                | none => 0
              else 0
          let md' : StepMetadata :=
            { md with
                text := some r.processedText
                links := some r.links
                timestamp := some preservedTimestamp }
          structure'.set idx { stepData with metadata := some md' }
    processTextSteps currentSteps rest structure''

/-- The sequential `while`-loop upload of `updateAllStepContent` for one
step: files are uploaded one by one (skipping empty files), and the
first failure aborts before any later file is dispatched. -/
def uploadStepImages (host : ImageFile → String) :
    List ImageFile → Except String (List String) × Nat
  | [] => (Except.ok [], 0)
  | f :: fs =>
    if f.size = 0 then uploadStepImages host fs
    else
      match uploadImageToImgBB host f with
      | (Except.error e, n) => (Except.error e, n)
      | (Except.ok u, n) =>
        match uploadStepImages host fs with
        | (Except.ok us, m) => (Except.ok (u :: us), n + m)
        | (Except.error e, m) => (Except.error e, n + m)

/-- The second loop of `updateAllStepContent` (`stepsWithNewImages`):
append the freshly uploaded urls to each referenced step's images.
There is no count limit anywhere in this path. -/
def processImageSteps (host : ImageFile → String) (newImages : Nat → List ImageFile) :
    List Nat → List Step → Except String (List Step) × Nat
  | [], structure' => (Except.ok structure', 0)
  | idx :: rest, structure' =>
    match structure'[idx]? with
    | none => processImageSteps host newImages rest structure'
    | some stepData =>
      match stepData.metadata with
      | none => processImageSteps host newImages rest structure'
      | some md =>
        match uploadStepImages host (newImages idx) with
        | (Except.error e, n) => (Except.error e, n)
        | (Except.ok newImageUrls, n) =>
          let structure'' :=
            if newImageUrls.isEmpty then structure'
            else
              let md' : StepMetadata :=
                { md with images := some ((md.images.getD []) ++ newImageUrls) }
              structure'.set idx { stepData with metadata := some md' }
          match processImageSteps host newImages rest structure'' with
          | (r, m) => (r, n + m)

/-- `updateAllStepContent(formData)`: the bulk step editor.
`stepsStructure` is the parsed client payload, `stepsToProcess` /
`stepsWithNewImages` the parsed index lists, and `newImages i` the
consecutive `newImage_i_j` files of the form. -/
def updateAllStepContent (host : ImageFile → String) (s : Store) (user : Option User)
    (trackId : String) (stepsStructure : List Step)
    (stepsToProcess : List Nat) (stepsWithNewImages : List Nat)
    (newImages : Nat → List ImageFile) (now : String) : Out :=
  match user with
  | none => ⟨Except.error "Editor not authenticated", s, 0⟩
  | some u =>
    if trackId == "" then
      ⟨Except.error "Missing track ID or steps structure.", s, 0⟩
    else
      match findTrack s trackId with
      | none => ⟨Except.error "Track or associated project not found.", s, 0⟩
      | some track =>
        match findProject s track.project_id with
        | none => ⟨Except.error "Track or associated project not found.", s, 0⟩
        | some project =>
          let profileOk :=
            match findProfile s u.id with
            | none => false
            | some editorProfile => project.editor_id == editorProfile.id
          if !profileOk then
            ⟨Except.error "Unauthorized: Project track does not belong to this editor.", s, 0⟩
          else if track.client_decision != "pending" then
            ⟨Except.error ("Client has already submitted their decision (" ++ track.client_decision ++ "). Cannot modify."), s, 0⟩
          else
            let afterText := processTextSteps track.steps stepsToProcess stepsStructure
            match processImageSteps host newImages stepsWithNewImages afterText with
            | (Except.error e, calls) => ⟨Except.error e, s, calls⟩
            | (Except.ok finalStructure, calls) =>
              ⟨Except.ok (),
                updateTrack s trackId (fun t =>
                  { t with steps := finalStructure, updated_at := now }),
                calls⟩

/-! ## Proof devices for the encoder round trip

A view of the global scan as alternating gap/token blocks, together
with the invariants the scan guarantees.  These are not part of the
embedded source; they are the decomposition the round-trip proof runs
on. -/

/-- Reassemble `(gap, token)` blocks and a trailing gap. -/
def glue : List (List Char × List Char) → List Char → List Char
  | [], last => last
  | (g, u) :: rest, last => g ++ u ++ glue rest last

/-- Same recursion as `scanUrlsF` but keeping the scanned text: the
gap before each match and the trailing gap. -/
def scanBlocksF : Nat → List Char → List (List Char × List Char) × List Char
  | 0, _ => ([], [])
  | _ + 1, [] => ([], [])
  | fuel + 1, c :: rest =>
    match matchUrlHere (c :: rest) with
    | some tok =>
      let r := scanBlocksF fuel (rest.drop (tok.length - 1))
      (([], tok) :: r.1, r.2)
    | none =>
      let r := scanBlocksF fuel rest
      match r.1 with
      | [] => ([], c :: r.2)
      | (g, u) :: more => ((c :: g, u) :: more, r.2)

/-- A well-formed URL token: a scheme followed by a non-empty body of
non-stop characters. -/
def UrlTok (tok : List Char) : Prop :=
  ∃ scheme body, (scheme = schemeHttps ∨ scheme = schemeHttp) ∧
    tok = scheme ++ body ∧ body ≠ [] ∧ ∀ c ∈ body, urlStop c = false

/-- No position strictly inside `g` (followed by the context `ctx`)
starts a regex match. -/
def GapClean (g ctx : List Char) : Prop :=
  ∀ g₁ g₂, g = g₁ ++ g₂ → g₂ ≠ [] → matchUrlHere (g₂ ++ ctx) = none

/-- The scan invariant: every gap is match-free in its context and every
token is the match the regex produces at its own position. -/
def ScanInv : List (List Char × List Char) → List Char → Prop
  | [], last => GapClean last []
  | (g, u) :: rest, last =>
    GapClean g (u ++ glue rest last) ∧
      matchUrlHere (u ++ glue rest last) = some u ∧ ScanInv rest last

/-- `links.findIndex(link => link.url === url)` against the accumulated
url list, with the to-be-appended index for a missing url. -/
def urlIdx (acc : List (List Char)) (u : List Char) : Nat :=
  match jsFindIndex acc u with
  | some k => k
  | none => acc.length

def dedupAppend (acc : List (List Char)) (u : List Char) : List (List Char) :=
  match jsFindIndex acc u with
  | some _ => acc
  | none => acc ++ [u]

/-- What the encoder fold produces on a block decomposition: each token
replaced by the placeholder of its (first-appearance) index, the url
accumulator threaded through. -/
def encBlocks (acc : List (List Char)) :
    List (List Char × List Char) → List Char → List Char × List (List Char)
  | [], last => (last, acc)
  | (g, u) :: rest, last =>
    let r := encBlocks (dedupAppend acc u) rest last
    (g ++ phChars (urlIdx acc u) ++ r.1, r.2)

/-- The guard-free encoder step: what `encodeStep` does on a text free
of pre-existing `[LINK:` (the guard never fires, and the match position
is then never consulted). -/
def encStepNG (st : List Char × List (List Char)) (u : List Char) :
    List Char × List (List Char) :=
  match jsFindIndex st.2 u with
  | some k => (replaceFirst st.1 u (phChars k), st.2)
  | none => (replaceFirst st.1 u (phChars st.2.length), st.2 ++ [u])

/-- `pat` occurs nowhere inside `l`. -/
def NoOcc (pat l : List Char) : Prop := ∀ a b, l ≠ a ++ pat ++ b

/-- Executable check of the claim's side condition: no URL of the list
is a substring of another, distinct URL of the list. -/
def noSubPairs (toks : List (List Char)) : Bool :=
  toks.all (fun u => toks.all (fun v => v = u || (splitFirstOcc u v).isNone))

/-- Every nonempty suffix of `g` starts no regex match, whatever the
continuation: the cleanness a fully encoded prefix enjoys. -/
def ECleanAll (g : List Char) : Prop :=
  ∀ a y, g = a ++ y → y ≠ [] → ∀ z, matchUrlHere (y ++ z) = none

/-! ## Concrete fixtures used by witnesses and counterexamples -/

def edUser : User := ⟨"u1"⟩

def userB : User := ⟨"u2"⟩

def edProfile : EditorProfile := ⟨"e1", "u1"⟩

def proj1 : Project := ⟨"p1", "e1", "active"⟩

/-- 10.5, the middle timestamp of the spec's ordering scenario. -/
def tsTenHalf : ℚ := Rat.mk' 21 2 (by decide) (by decide)

def finishStep : Step := ⟨some "Finish", "pending", true, none, none⟩

def commentMeta1 : StepMetadata :=
  ⟨some "comment", some "c1", some "old text", some 5, some [], some [], some "2024-01-01", some 0⟩

def commentStep1 : Step := ⟨some "Step 1", "completed", false, none, some commentMeta1⟩

def mkComment (i : String) (ts : ℚ) (cid : Option String) : ReviewComment :=
  ⟨i, "t1", ⟨"note", ts, [], []⟩, "Name", cid, "2024-01-02"⟩

def pendingTrack : Track :=
  ⟨"t1", "p1", 1, "in_review", "pending", [commentStep1, finishStep], none, "2024-01-03"⟩

def approvedTrack : Track := { pendingTrack with client_decision := "approved" }

/-- Pending track, three comments at timestamps 2, 10.5 and 1 (the
spec's request-revisions ordering scenario); `c1` is anonymous, `c2`
belongs to user `u1`, `c3` to user `u2`. -/
def baseStore : Store :=
  ⟨[proj1], [edProfile], [pendingTrack],
    [mkComment "c1" 2 none, mkComment "c2" tsTenHalf (some "u1"), mkComment "c3" 1 (some "u2")]⟩

def approvedStore : Store :=
  ⟨[proj1], [edProfile], [approvedTrack], [mkComment "c1" 2 none]⟩

/-- A store with no editor profiles and no projects at all, only a
pending track. -/
def noEditorStore : Store := ⟨[], [], [pendingTrack], []⟩

def descrMeta : StepMetadata := ⟨none, some "c1", some "new text", some 99, none, none, none, none⟩

def descr : NewStepInfo := ⟨some "Renamed", some descrMeta⟩

def imgFile (nm : String) : ImageFile := ⟨nm, 100, "image/png"⟩

def hostFx : ImageFile → String := fun f => "https://i.ibb.co/" ++ f.name

def fiveFiles : List ImageFile :=
  [imgFile "a", imgFile "b", imgFile "c", imgFile "d", imgFile "e"]

def newImagesFx : Nat → List ImageFile := fun i => if i = 0 then fiveFiles else []

def profB : EditorProfile := ⟨"e2", "u2"⟩

/-- Like `baseStore` but with a second editor profile (`u2`/`e2`) that
does not own project `p1`. -/
def mismatchStore : Store :=
  ⟨[proj1], [edProfile, profB], [pendingTrack],
    [mkComment "c1" 2 none, mkComment "c2" tsTenHalf (some "u1"), mkComment "c3" 1 (some "u2")]⟩

/-- A descriptor matching `c1` that carries no timestamp of its own. -/
def descrNoTs : NewStepInfo :=
  ⟨some "Renamed", some ⟨none, some "c1", some "new text", none, none, none, none, none⟩⟩

/-- A descriptor with no `comment_id` at all. -/
def descrNoCid : NewStepInfo := ⟨some "Fresh", none⟩

/-- The steps-list invariant of the spec: exactly one step is final and
it is the last element. -/
def finalInvariant (steps : List Step) : Prop :=
  steps.countP (fun st => st.is_final) = 1 ∧
    (steps.getLast?).map Step.is_final = some true

/-- The round-2 track produced by the concrete request-revisions run. -/
def round2Track : Track :=
  (findTrack (clientRequestRevisions baseStore "t1" "t2" "now").store "t2").getD pendingTrack

/-- The track after the concrete `deliverInitialRound` run with no
comments. -/
def deliveredTrack : Track :=
  (findTrack (deliverInitialRound hostFx baseStore "t1" "https://d/v" [] "now").store "t1").getD
    pendingTrack

/-- The track after the concrete `createInitialRound` run with no
comments. -/
def createdTrack : Track :=
  (findTrack (createInitialRound hostFx baseStore "p1" "t1" [] "now").store "t1").getD pendingTrack

/-- The track after the concrete `updateTrackStructure` run with one
fresh descriptor. -/
def restructuredTrack : Track :=
  (findTrack (updateTrackStructure baseStore (some edUser) "t1" [descrNoCid] "now").store "t1").getD
    pendingTrack

/-! ## Theorems -/

/-- C2: on the spec's own scenario — three comments at timestamps
[2, 10.5, 1] — `clientRequestRevisions` succeeds and builds the round-2
steps carrying `comment_id`, text, timestamp, images, links and creation
time plus a trailing final step, but in the order [1, 10.5, 2, final]:
the query orders by `comment->>timestamp`, i.e. by the *text* rendering
of the timestamp ("1" < "10.5" < "2"), not by its numeric value, so the
claimed order [1, 2, 10.5, final] is violated while the sibling display
queries (`comment->timestamp`) order numerically. -/
theorem clientRequestRevisions_text_order :
    (clientRequestRevisions baseStore "t1" "t2" "2024-02-02").res = Except.ok () ∧
    (clientRequestRevisions baseStore "t1" "t2" "2024-02-02").store.project_tracks.map
        (fun t => (t.id, t.round_number, t.client_decision)) =
      [("t1", 1, "revisions_requested"), ("t2", 2, "pending")] ∧
    (clientRequestRevisions baseStore "t1" "t2" "2024-02-02").store.project_tracks.map
        (fun t => t.steps.map (fun st => st.metadata.bind StepMetadata.timestamp)) =
      [[some 5, none], [some 1, some tsTenHalf, some 2, none]] ∧
    (clientRequestRevisions baseStore "t1" "t2" "2024-02-02").store.project_tracks.map
        (fun t => t.steps.map (fun st => st.metadata.bind StepMetadata.comment_id)) =
      [[some "c1", none], [some "c3", some "c2", some "c1", none]] ∧
    (clientRequestRevisions baseStore "t1" "t2" "2024-02-02").store.project_tracks.map
        (fun t => (t.steps.getLast?).map Step.is_final) = [some true, some true] := by
  decide

/-- C1 counterexample: `updateProjectTrackStepStatus` is a mutating
operation on a track whose decision is `"approved"`, yet it succeeds and
changes the persisted track instead of failing with an error carrying
the decision — the action never reads `client_decision`. -/
theorem stepStatus_ignores_decision :
    (updateProjectTrackStepStatus approvedStore "t1" 0 "pending" none none "2024-02-02").res
        = Except.ok () ∧
    (updateProjectTrackStepStatus approvedStore "t1" 0 "pending" none none "2024-02-02").store
        ≠ approvedStore ∧
    approvedTrack.client_decision = "approved" := by
  decide

/-- C5 counterexample: `updateProjectTrackStepStatus` succeeds on a
store that contains no editor profile and no project at all — the
action takes no authenticated user and performs no ownership check, so
"succeeds only when the requester is the authenticated owner" fails. -/
theorem stepStatus_no_auth_check :
    (updateProjectTrackStepStatus noEditorStore "t1" 0 "pending" none none "2024-02-02").res
        = Except.ok () ∧
    noEditorStore.editor_profiles = [] ∧ noEditorStore.projects = [] := by
  decide

/-- C9 counterexample: marking the final step `"completed"` with neither
a deliverable link nor a media type succeeds — nothing requires them;
the status flips while `deliverable_link` and
`final_deliverable_media_type` are both left `none`. -/
theorem finalStep_completed_without_link :
    (updateProjectTrackStepStatus baseStore "t1" 1 "completed" none none "2024-02-02").res
        = Except.ok () ∧
    (updateProjectTrackStepStatus baseStore "t1" 1 "completed" none none "2024-02-02").store.project_tracks.map
        (fun t => (t.steps.map (fun st => (st.is_final, st.status, st.deliverable_link)),
          t.final_deliverable_media_type)) =
      [([(false, "completed", none), (true, "completed", none)], none)] := by
  decide

/-- C4 counterexample: the prior step matched via `comment_id = "c1"`
has `metadata.timestamp = 5`, but the descriptor also carries
`timestamp = 99` and the JS spread lets the descriptor win: the
resulting step has timestamp 99, so the prior timestamp is not kept. -/
theorem structure_timestamp_overridden :
    (updateTrackStructure baseStore (some edUser) "t1" [descr] "2024-02-02").res
        = Except.ok () ∧
    (updateTrackStructure baseStore (some edUser) "t1" [descr] "2024-02-02").store.project_tracks.map
        (fun t => t.steps.map (fun st => (st.status, st.metadata.bind StepMetadata.timestamp))) =
      [[("completed", some 99), ("pending", none)]] ∧
    commentStep1.metadata.bind StepMetadata.timestamp = some 5 ∧
    metaCommentId commentStep1 = some "c1" ∧
    descrMeta.comment_id = some "c1" := by
  decide

/-- C8 counterexample: `updateAllStepContent` attaches a batch of five
fresh images (plus zero kept ones) to a single step: the mutation
succeeds and all five upload calls are dispatched — no count-exceeded
validation exists on this step-mutation path. -/
theorem bulkUpdate_five_images_uploaded :
    (updateAllStepContent hostFx baseStore (some edUser) "t1" [commentStep1, finishStep]
        [] [0] newImagesFx "2024-02-02").res = Except.ok () ∧
    (updateAllStepContent hostFx baseStore (some edUser) "t1" [commentStep1, finishStep]
        [] [0] newImagesFx "2024-02-02").calls = 5 ∧
    MAX_IMAGES_PER_COMMENT = 4 ∧
    (updateAllStepContent hostFx baseStore (some edUser) "t1" [commentStep1, finishStep]
        [] [0] newImagesFx "2024-02-02").store.project_tracks.map
        (fun t => t.steps.map (fun st => (st.metadata.bind StepMetadata.images).map List.length)) =
      [[some 5, none]] := by
  decide

/-- Replacing the comment with id `cid` by `upd` (with the same id) and
looking it up again finds `upd`. -/
theorem find?_map_ite (l : List ReviewComment) (cid : String) (upd old : ReviewComment)
    (hupd : (upd.id == cid) = true)
    (hfind : l.find? (fun c => c.id == cid) = some old) :
    (l.map (fun c => if c.id == cid then upd else c)).find? (fun c => c.id == cid) = some upd := by
  induction l with
  | nil => simp at hfind
  | cons c tail ih =>
    by_cases hc : (c.id == cid) = true
    · simp only [List.map_cons, if_pos hc, List.find?, hupd]
    · have hcf : (c.id == cid) = false := by simpa using hc
      simp only [List.find?, hcf] at hfind
      rw [List.map_cons, if_neg hc]
      simp only [List.find?, hcf]
      exact ih hfind

/-- C10: a successful `updateReviewComment` leaves the stored comment's
`timestamp` unchanged (and also its id, track, commenter identity and
creation time) — the update replaces only text, links, images and
possibly the commenter name, so editing never moves the comment in the
timestamp order. -/
theorem claim10_timestamp_frame (host : ImageFile → String) (s : Store) (user : Option User)
    (commentId : String) (newText : Option String) (imgs : Option (List String))
    (cname : String) (files : List ImageFile) (old : ReviewComment)
    (hfind : findComment s commentId = some old) :
    (updateReviewComment host s user commentId newText imgs cname files).res = Except.ok () →
    (findComment (updateReviewComment host s user commentId newText imgs cname files).store
          commentId).map
        (fun c => (c.comment.timestamp, c.id, c.track_id, c.commenter_id, c.created_at)) =
      some (old.comment.timestamp, old.id, old.track_id, old.commenter_id, old.created_at) := by
  have hid : (old.id == commentId) = true := by
    have h2 : s.review_comments.find? (fun c => c.id == commentId) = some old := by
      simpa [findComment] using hfind
    simpa using List.find?_some h2
  have hfind2 : s.review_comments.find? (fun c => c.id == commentId) = some old := by
    simpa [findComment] using hfind
  unfold updateReviewComment
  simp only [hfind]
  repeat' split
  all_goals intro hok
  any_goals (simp at hok; done)
  all_goals
    dsimp only
    simp only [findComment]
    rw [find?_map_ite s.review_comments commentId _ old (by exact hid) hfind2]
  all_goals rfl

/-- C10 witness: an anonymous edit of the anonymous comment `c1`
(timestamp 2) succeeds and the stored comment still has timestamp 2 and
its original identity fields. -/
theorem claim10_timestamp_frame_witness :
    (updateReviewComment hostFx baseStore none "c1" (some "hello") (some []) "" []).res
        = Except.ok () ∧
    (findComment (updateReviewComment hostFx baseStore none "c1" (some "hello") (some []) "" []).store
          "c1").map
        (fun c => (c.comment.timestamp, c.id, c.track_id, c.commenter_id, c.created_at)) =
      some ((mkComment "c1" 2 none).comment.timestamp, (mkComment "c1" 2 none).id,
        (mkComment "c1" 2 none).track_id, (mkComment "c1" 2 none).commenter_id,
        (mkComment "c1" 2 none).created_at) :=
  ⟨by decide,
   claim10_timestamp_frame hostFx baseStore none "c1" (some "hello") (some []) "" []
     (mkComment "c1" 2 none) (by decide) (by decide)⟩

/-- C6: `updateReviewComment` / `deleteReviewComment` can only succeed
when the ownership predicate holds for the actor and the stored
comment's `commenter_id`, and that predicate is exactly
"(authenticated and `actor.id = commenter_id`) or (`commenter_id` null
and unauthenticated)" — so an anonymous comment is never editable or
deletable by an authenticated user, and user A's comment never by a
different authenticated user B. -/
theorem claim6_comment_ownership :
    (∀ (host : ImageFile → String) (s : Store) (user : Option User) (commentId : String)
        (newText : Option String) (imgs : Option (List String)) (cname : String)
        (files : List ImageFile) (c : ReviewComment),
      findComment s commentId = some c →
      (updateReviewComment host s user commentId newText imgs cname files).res = Except.ok () →
      isOwnComment user c.commenter_id = true) ∧
    (∀ (s : Store) (user : Option User) (commentId : String) (c : ReviewComment),
      findComment s commentId = some c →
      (deleteReviewComment s user commentId).res = Except.ok () →
      isOwnComment user c.commenter_id = true) ∧
    (∀ (user : Option User) (cid : Option String),
      isOwnComment user cid = true ↔
        ((∃ u, user = some u ∧ cid = some u.id) ∨ (cid = none ∧ user = none))) := by
  refine ⟨?_, ?_, ?_⟩
  · intro host s user commentId newText imgs cname files c hfind
    cases hio : isOwnComment user c.commenter_id
    · intro hok
      unfold updateReviewComment at hok
      simp only [hfind, hio, Bool.not_false, if_true] at hok
      repeat' split at hok
      all_goals simp at hok
    · intro _; rfl
  · intro s user commentId c hfind
    cases hio : isOwnComment user c.commenter_id
    · intro hok
      unfold deleteReviewComment at hok
      simp only [hfind, hio, Bool.not_false, if_true] at hok
      repeat' split at hok
      all_goals simp at hok
    · intro _; rfl
  · intro user cid
    cases user with
    | none => cases cid <;> simp [isOwnComment]
    | some u =>
      cases cid with
      | none => simp [isOwnComment]
      | some v =>
        simp [isOwnComment, beq_iff_eq]
        exact eq_comm

/-- C6 witness: the anonymous edit and the anonymous delete of the
anonymous comment `c1` both succeed, and the theorem forces the
ownership predicate to hold there; an authenticated user against an
anonymous comment is never an owner. -/
theorem claim6_comment_ownership_witness :
    (updateReviewComment hostFx baseStore none "c1" (some "hi") (some []) "" []).res
        = Except.ok () ∧
    (deleteReviewComment baseStore none "c1").res = Except.ok () ∧
    isOwnComment none (mkComment "c1" 2 none).commenter_id = true ∧
    isOwnComment (some edUser) none = false :=
  ⟨by decide, by decide,
   (claim6_comment_ownership).1 hostFx baseStore none "c1" (some "hi") (some []) "" []
     (mkComment "c1" 2 none) (by decide) (by decide),
   by decide⟩

/-- C1 (amended): on a track whose decision is no longer `"pending"`,
adding/editing/deleting a review comment, restructuring steps and
editing step content fail with an error carrying the existing decision
value; requesting revisions and approving fail with the generic
`"Decision already submitted."`; in every case the persisted state is
returned unchanged and no upload call is made.  (Setting a step's
status is *not* in this list: see the counterexample — that action
performs no decision check at all.) -/
theorem claim1_decision_guard :
    (∀ (host : ImageFile → String) (s : Store) (user : Option User) (trackId : String)
        (ts : ℚ) (text cname : String) (files : List ImageFile) (links : Option (List Link))
        (cid now : String) (tr : Track),
      findTrack s trackId = some tr → tr.client_decision ≠ "pending" →
      trackId ≠ "" → (jsTrim text ≠ "" ∨ files ≠ []) → ¬ ts < 0 →
      files.length ≤ MAX_IMAGES_PER_COMMENT →
      addReviewComment host s user trackId true ts text cname files links cid now =
        ⟨Except.error ("Decision (" ++ tr.client_decision ++ ") submitted."), s, 0⟩) ∧
    (∀ (host : ImageFile → String) (s : Store) (user : Option User) (commentId : String)
        (txt : String) (keep : List String) (cname : String) (files : List ImageFile)
        (c : ReviewComment) (tr : Track),
      commentId ≠ "" → findComment s commentId = some c →
      findTrack s c.track_id = some tr →
      isOwnComment user c.commenter_id = true → tr.client_decision ≠ "pending" →
      updateReviewComment host s user commentId (some txt) (some keep) cname files =
        ⟨Except.error ("Decision (" ++ tr.client_decision ++ ") submitted."), s, 0⟩) ∧
    (∀ (s : Store) (user : Option User) (commentId : String) (c : ReviewComment) (tr : Track),
      commentId ≠ "" → findComment s commentId = some c →
      findTrack s c.track_id = some tr →
      isOwnComment user c.commenter_id = true → tr.client_decision ≠ "pending" →
      deleteReviewComment s user commentId =
        ⟨Except.error ("Decision (" ++ tr.client_decision ++ ") submitted."), s, 0⟩) ∧
    (∀ (s : Store) (u : User) (trackId : String) (infos : List NewStepInfo) (now : String)
        (prof : EditorProfile) (tr : Track) (p : Project),
      trackId ≠ "" → findProfile s u.id = some prof → findTrack s trackId = some tr →
      findProject s tr.project_id = some p → p.editor_id = prof.id →
      tr.client_decision ≠ "pending" →
      updateTrackStructure s (some u) trackId infos now =
        ⟨Except.error ("Client decision is '" ++ tr.client_decision ++ "'. Cannot modify structure."),
          s, 0⟩) ∧
    (∀ (host : ImageFile → String) (s : Store) (u : User) (trackId : String) (stepIndex : Int)
        (textRaw : String) (keep : Option (List String)) (files : List ImageFile) (now : String)
        (prof : EditorProfile) (tr : Track) (p : Project),
      ¬ stepIndex < 0 → findTrack s trackId = some tr →
      findProject s tr.project_id = some p → findProfile s u.id = some prof →
      p.editor_id = prof.id → tr.client_decision ≠ "pending" →
      updateStepContent host s (some u) trackId true stepIndex textRaw keep files now =
        ⟨Except.error ("Client has already submitted their decision (" ++ tr.client_decision ++
            "). Cannot modify step content."), s, 0⟩) ∧
    (∀ (s : Store) (trackId newTrackId now : String) (tr : Track),
      findTrack s trackId = some tr → tr.client_decision ≠ "pending" →
      clientRequestRevisions s trackId newTrackId now =
        ⟨Except.error "Decision already submitted.", s, 0⟩) ∧
    (∀ (s : Store) (projectId trackId now : String) (tr : Track),
      s.project_tracks.find? (fun t => t.id == trackId && t.project_id == projectId) = some tr →
      tr.client_decision ≠ "pending" →
      clientApproveProject s projectId trackId now =
        ⟨Except.error "Decision already submitted.", s, 0⟩) := by
  refine ⟨?_, ?_, ?_, ?_, ?_, ?_, ?_⟩
  · intro host s user trackId ts text cname files links cid now tr hfind hdec h1 h2 h3 h4
    have b1 : (trackId == "") = false := by simpa using h1
    have b2 : (jsTrim text == "" && files.isEmpty) = false := by
      rcases h2 with h | h
      · simp [h]
      · simp [h]
    have b4 : ¬ MAX_IMAGES_PER_COMMENT < files.length := by omega
    have b5 : (tr.client_decision != "pending") = true := by simpa using hdec
    unfold addReviewComment
    simp [hfind, b1, b2, b5, h3, b4]
  · intro host s user commentId txt keep cname files c tr h1 hfindC hfindT hown hdec
    have b1 : (commentId == "") = false := by simpa using h1
    have b5 : (tr.client_decision != "pending") = true := by simpa using hdec
    unfold updateReviewComment
    simp [hfindC, hfindT, b1, hown, b5]
  · intro s user commentId c tr h1 hfindC hfindT hown hdec
    have b1 : (commentId == "") = false := by simpa using h1
    have b5 : (tr.client_decision != "pending") = true := by simpa using hdec
    unfold deleteReviewComment
    simp [hfindC, hfindT, b1, hown, b5]
  · intro s u trackId infos now prof tr p h1 hprof hfindT hfindP hed hdec
    have b1 : (trackId == "") = false := by simpa using h1
    have b5 : (tr.client_decision != "pending") = true := by simpa using hdec
    have bed : (p.editor_id != prof.id) = false := by simpa using hed
    unfold updateTrackStructure
    simp [hprof, hfindT, hfindP, b1, bed, b5]
  · intro host s u trackId stepIndex textRaw keep files now prof tr p hidx hfindT hfindP hprof hed hdec
    have b5 : (tr.client_decision != "pending") = true := by simpa using hdec
    have bed : (p.editor_id == prof.id) = true := by simpa using hed
    unfold updateStepContent
    simp [hfindT, hfindP, hprof, hidx, bed, b5]
  · intro s trackId newTrackId now tr hfind hdec
    have b5 : (tr.client_decision != "pending") = true := by simpa using hdec
    unfold clientRequestRevisions
    simp [hfind, b5]
  · intro s projectId trackId now tr hfind hdec
    have b5 : (tr.client_decision != "pending") = true := by simpa using hdec
    unfold clientApproveProject
    simp [hfind, b5]

/-- C1 witness: all seven guarded operations, run against the approved
track `t1`, return the stated errors and leave the store untouched. -/
theorem claim1_decision_guard_witness :
    addReviewComment hostFx approvedStore none "t1" true 1 "hi" "" [] none "c9" "now" =
      ⟨Except.error "Decision (approved) submitted.", approvedStore, 0⟩ ∧
    updateReviewComment hostFx approvedStore none "c1" (some "hi") (some []) "" [] =
      ⟨Except.error "Decision (approved) submitted.", approvedStore, 0⟩ ∧
    deleteReviewComment approvedStore none "c1" =
      ⟨Except.error "Decision (approved) submitted.", approvedStore, 0⟩ ∧
    updateTrackStructure approvedStore (some edUser) "t1" [] "now" =
      ⟨Except.error "Client decision is 'approved'. Cannot modify structure.", approvedStore, 0⟩ ∧
    updateStepContent hostFx approvedStore (some edUser) "t1" true 0 "txt" none [] "now" =
      ⟨Except.error "Client has already submitted their decision (approved). Cannot modify step content.",
        approvedStore, 0⟩ ∧
    clientRequestRevisions approvedStore "t1" "t2" "now" =
      ⟨Except.error "Decision already submitted.", approvedStore, 0⟩ ∧
    clientApproveProject approvedStore "p1" "t1" "now" =
      ⟨Except.error "Decision already submitted.", approvedStore, 0⟩ :=
  ⟨(claim1_decision_guard).1 hostFx approvedStore none "t1" 1 "hi" "" [] none "c9" "now"
      approvedTrack (by decide) (by decide) (by decide) (Or.inl (by decide)) (by decide) (by decide),
   (claim1_decision_guard).2.1 hostFx approvedStore none "c1" "hi" [] "" []
      (mkComment "c1" 2 none) approvedTrack (by decide) (by decide) (by decide) (by decide) (by decide),
   (claim1_decision_guard).2.2.1 approvedStore none "c1" (mkComment "c1" 2 none) approvedTrack
      (by decide) (by decide) (by decide) (by decide) (by decide),
   (claim1_decision_guard).2.2.2.1 approvedStore edUser "t1" [] "now" edProfile approvedTrack proj1
      (by decide) (by decide) (by decide) (by decide) (by decide) (by decide),
   (claim1_decision_guard).2.2.2.2.1 hostFx approvedStore edUser "t1" 0 "txt" none [] "now"
      edProfile approvedTrack proj1 (by decide) (by decide) (by decide) (by decide) (by decide) (by decide),
   (claim1_decision_guard).2.2.2.2.2.1 approvedStore "t1" "t2" "now" approvedTrack
      (by decide) (by decide),
   (claim1_decision_guard).2.2.2.2.2.2 approvedStore "p1" "t1" "now" approvedTrack
      (by decide) (by decide)⟩

/-- C5 (amended): `updateTrackStructure` and `updateStepContent` succeed
only when the caller is authenticated and owns the project through an
editor profile, and any authenticated mismatch fails with the
`Unauthorized` error regardless of the track's decision state;
`updateProjectTrackStepStatus`, however, performs no authorization
check at all (see the counterexample). -/
theorem claim5_editor_authorization :
    (∀ (s : Store) (user : Option User) (trackId : String) (infos : List NewStepInfo) (now : String),
      (updateTrackStructure s user trackId infos now).res = Except.ok () →
      ∃ u prof tr p, user = some u ∧ findProfile s u.id = some prof ∧
        findTrack s trackId = some tr ∧ findProject s tr.project_id = some p ∧
        p.editor_id = prof.id) ∧
    (∀ (host : ImageFile → String) (s : Store) (user : Option User) (trackId : String)
        (stepIndexGiven : Bool) (stepIndex : Int) (textRaw : String)
        (keep : Option (List String)) (files : List ImageFile) (now : String),
      (updateStepContent host s user trackId stepIndexGiven stepIndex textRaw keep files now).res
          = Except.ok () →
      ∃ u prof tr p, user = some u ∧ findProfile s u.id = some prof ∧
        findTrack s trackId = some tr ∧ findProject s tr.project_id = some p ∧
        p.editor_id = prof.id) ∧
    (∀ (s : Store) (u : User) (trackId : String) (infos : List NewStepInfo) (now : String)
        (prof : EditorProfile) (tr : Track) (p : Project),
      trackId ≠ "" → findProfile s u.id = some prof → findTrack s trackId = some tr →
      findProject s tr.project_id = some p → p.editor_id ≠ prof.id →
      updateTrackStructure s (some u) trackId infos now =
        ⟨Except.error "Unauthorized: Project track does not belong to this editor.", s, 0⟩) ∧
    (∀ (host : ImageFile → String) (s : Store) (u : User) (trackId : String) (stepIndex : Int)
        (textRaw : String) (keep : Option (List String)) (files : List ImageFile) (now : String)
        (tr : Track) (p : Project),
      ¬ stepIndex < 0 → findTrack s trackId = some tr →
      findProject s tr.project_id = some p →
      (∀ prof, findProfile s u.id = some prof → p.editor_id ≠ prof.id) →
      updateStepContent host s (some u) trackId true stepIndex textRaw keep files now =
        ⟨Except.error "Unauthorized: Project track does not belong to this editor.", s, 0⟩) := by
  refine ⟨?_, ?_, ?_, ?_⟩
  · intro s user trackId infos now
    unfold updateTrackStructure
    repeat' split
    all_goals intro hok
    any_goals (simp at hok; done)
    all_goals
      rename_i hg user0 u xa prof hprof xb tr htr xc p hp hed hdec xd fin hfin
    all_goals
      exact ⟨u, prof, tr, p, rfl, hprof, htr, hp, by simpa using hed⟩
  · intro host s user trackId stepIndexGiven stepIndex textRaw keep files now
    unfold updateStepContent
    rcases user with _ | u
    · intro hok; simp at hok
    rcases hu : findProfile s u.id with _ | prof
    · simp only [hu, Bool.not_false, if_true]
      repeat' split
      all_goals intro hok
      all_goals simp at hok
    · simp only [hu]
      repeat' split
      all_goals intro hok
      any_goals (simp at hok; done)
      all_goals
        rename_i hgiven hidx xa tr htr xb p hp hed hdec hbnd xc st hst hfin ups urls k hequ
      all_goals
        exact ⟨u, prof, tr, p, rfl, hu, htr, hp, by simpa using hed⟩
  · intro s u trackId infos now prof tr p h1 hprof hfindT hfindP hed
    have b1 : (trackId == "") = false := by simpa using h1
    have bed : (p.editor_id != prof.id) = true := by simpa using hed
    unfold updateTrackStructure
    simp [hprof, hfindT, hfindP, b1, bed]
  · intro host s u trackId stepIndex textRaw keep files now tr p hidx hfindT hfindP hprof
    unfold updateStepContent
    rcases hu : findProfile s u.id with _ | prof
    · simp [hfindT, hfindP, hu, hidx]
    · have bed : (p.editor_id == prof.id) = false := by simpa using hprof prof hu
      simp [hfindT, hfindP, hu, hidx, bed]

/-- Updating the track `tid` through an id-preserving function commutes
with the lookup. -/
theorem find?_map_track (l : List Track) (tid : String) (f : Track → Track)
    (hid : ∀ t, (f t).id = t.id) :
    (l.map (fun t => if t.id == tid then f t else t)).find? (fun t => t.id == tid) =
      (l.find? (fun t => t.id == tid)).map f := by
  induction l with
  | nil => rfl
  | cons t tail ih =>
    by_cases hc : (t.id == tid) = true
    · have hcf : ((f t).id == tid) = true := by rw [hid t]; exact hc
      rw [List.map_cons, if_pos hc]
      simp only [List.find?, hcf, hc]
      rfl
    · have hcf : (t.id == tid) = false := by simpa using hc
      rw [List.map_cons, if_neg hc]
      simp only [List.find?, hcf]
      exact ih

theorem findTrack_updateTrack (s : Store) (tid : String) (f : Track → Track)
    (hid : ∀ t, (f t).id = t.id) :
    findTrack (updateTrack s tid f) tid = (findTrack s tid).map f := by
  simpa [findTrack, updateTrack] using find?_map_track s.project_tracks tid f hid

/-- C5 witness: the owning editor's restructure and content edit
succeed (so the theorem yields the ownership chain), and the
non-owning editor `u2` gets the `Unauthorized` error from both. -/
theorem claim5_editor_authorization_witness :
    (∃ u prof tr p, (some edUser : Option User) = some u ∧
      findProfile baseStore u.id = some prof ∧ findTrack baseStore "t1" = some tr ∧
      findProject baseStore tr.project_id = some p ∧ p.editor_id = prof.id) ∧
    (∃ u prof tr p, (some edUser : Option User) = some u ∧
      findProfile baseStore u.id = some prof ∧ findTrack baseStore "t1" = some tr ∧
      findProject baseStore tr.project_id = some p ∧ p.editor_id = prof.id) ∧
    updateTrackStructure mismatchStore (some userB) "t1" [] "now" =
      ⟨Except.error "Unauthorized: Project track does not belong to this editor.", mismatchStore, 0⟩ ∧
    updateStepContent hostFx mismatchStore (some userB) "t1" true 0 "x" none [] "now" =
      ⟨Except.error "Unauthorized: Project track does not belong to this editor.", mismatchStore, 0⟩ :=
  ⟨(claim5_editor_authorization).1 baseStore (some edUser) "t1" [descr] "now" (by decide),
   (claim5_editor_authorization).2.1 hostFx baseStore (some edUser) "t1" true 0 "hello" none []
     "now" (by decide),
   (claim5_editor_authorization).2.2.1 mismatchStore userB "t1" [] "now" profB pendingTrack proj1
     (by decide) (by decide) (by decide) (by decide) (by decide),
   (claim5_editor_authorization).2.2.2 hostFx mismatchStore userB "t1" 0 "x" none [] "now"
     pendingTrack proj1 (by decide) (by decide) (by decide)
     (by
       intro prof h
       rw [show findProfile mismatchStore userB.id = some profB from by decide] at h
       cases h
       decide)⟩

/-- C4 (amended): in `updateTrackStructure`, a descriptor whose
`comment_id` matches a prior non-final step keeps that step's `status`,
and keeps its `metadata.timestamp` whenever the descriptor itself does
not carry a timestamp (a descriptor-supplied timestamp wins, see the
counterexample); a descriptor with no matching `comment_id` gets status
`"pending"`; and a successful call persists exactly these merged steps
followed by the original final step. -/
theorem claim4_structure_merge :
    (∀ (steps : List Step) (index : Nat) (info : NewStepInfo) (cid : String) (old : Step),
      info.metadata.bind StepMetadata.comment_id = some cid → cid ≠ "" →
      oldStepByCid steps cid = some old → old.status ≠ "" →
      (structureStep steps index info).status = old.status ∧
      (info.metadata.bind StepMetadata.timestamp = none →
        (structureStep steps index info).metadata.bind StepMetadata.timestamp =
          old.metadata.bind StepMetadata.timestamp)) ∧
    (∀ (steps : List Step) (index : Nat) (info : NewStepInfo),
      (strTruthy (info.metadata.bind StepMetadata.comment_id) = false ∨
        oldStepByCid steps ((info.metadata.bind StepMetadata.comment_id).getD "") = none) →
      (structureStep steps index info).status = "pending") ∧
    (∀ (s : Store) (u : User) (trackId now : String) (infos : List NewStepInfo)
        (prof : EditorProfile) (tr : Track) (p : Project) (fin : Step),
      trackId ≠ "" → findProfile s u.id = some prof → findTrack s trackId = some tr →
      findProject s tr.project_id = some p → p.editor_id = prof.id →
      tr.client_decision = "pending" → tr.steps.find? (fun st => st.is_final) = some fin →
      (updateTrackStructure s (some u) trackId infos now).res = Except.ok () ∧
      findTrack (updateTrackStructure s (some u) trackId infos now).store trackId =
        some { tr with
            steps := mapWithIdx (structureStep tr.steps) 0 infos ++ [fin],
            updated_at := now }) := by
  refine ⟨?_, ?_, ?_⟩
  · intro steps index info cid old hcid hne hold hstat
    have htru : strTruthy (info.metadata.bind StepMetadata.comment_id) = true := by
      rw [hcid]; simpa [strTruthy] using hne
    have htru2 : strTruthy (some cid) = true := by simpa [strTruthy] using hne
    constructor
    · simp [structureStep, htru2, hcid, hold, jsOrDefault, hstat]
    · intro hts
      simp [structureStep, htru2, hcid, hold, mergeStructureMeta, hts, optOrElse]
  · intro steps index info hdisj
    rcases hdisj with h | h
    · simp [structureStep, h, jsOrDefault]
    · by_cases htru : strTruthy (info.metadata.bind StepMetadata.comment_id) = true
      · simp [structureStep, htru, h, jsOrDefault]
      · have : strTruthy (info.metadata.bind StepMetadata.comment_id) = false := by
          simpa using htru
        simp [structureStep, this, jsOrDefault]
  · intro s u trackId now infos prof tr p fin h1 hprof hfindT hfindP hed hdec hfin
    have b1 : (trackId == "") = false := by simpa using h1
    have bed : (p.editor_id != prof.id) = false := by simpa using hed
    have bdec : (tr.client_decision != "pending") = false := by simp [hdec]
    constructor
    · unfold updateTrackStructure
      simp [hprof, hfindT, hfindP, b1, bed, bdec, hfin]
    · unfold updateTrackStructure
      simp only [hprof, hfindT, hfindP, b1, bed, bdec, hfin, Bool.false_eq_true, if_false]
      rw [findTrack_updateTrack s trackId
          (fun t => { t with
              steps := mapWithIdx (structureStep tr.steps) 0 infos ++ [fin],
              updated_at := now })
          (fun t => rfl), hfindT]
      rfl

/-- C9 (amended): for the final step, `updateProjectTrackStepStatus`
records `deliverable_link` and `final_deliverable_media_type` when it is
completed *with* a truthy link and media type; completing it without
them is *not* rejected — the status flips and both fields are simply
left as they were; setting it back to `"pending"` clears both. -/
theorem claim9_final_step_deliverable (s : Store) (trackId : String) (stepIndex : Int)
    (linkValue finalMediaType : Option String) (now : String) (tr : Track) (st : Step)
    (hfind : findTrack s trackId = some tr)
    (hge : ¬ stepIndex < 0) (hlt : ¬ (tr.steps.length : Int) ≤ stepIndex)
    (hstep : tr.steps[stepIndex.toNat]? = some st) (hfin : st.is_final = true) :
    (strTruthy linkValue = true → strTruthy finalMediaType = true →
      updateProjectTrackStepStatus s trackId stepIndex "completed" linkValue finalMediaType now =
        ⟨Except.ok (),
          updateTrack s trackId (fun t =>
            { t with
                steps := tr.steps.set stepIndex.toNat
                  { st with status := "completed", deliverable_link := linkValue },
                final_deliverable_media_type := finalMediaType,
                updated_at := now }), 0⟩) ∧
    (updateProjectTrackStepStatus s trackId stepIndex "pending" linkValue finalMediaType now =
      ⟨Except.ok (),
        updateTrack s trackId (fun t =>
          { t with
              steps := tr.steps.set stepIndex.toNat
                { st with status := "pending", deliverable_link := none },
              final_deliverable_media_type := none,
              updated_at := now }), 0⟩) ∧
    (¬ (strTruthy linkValue = true ∧ strTruthy finalMediaType = true) →
      updateProjectTrackStepStatus s trackId stepIndex "completed" linkValue finalMediaType now =
        ⟨Except.ok (),
          updateTrack s trackId (fun t =>
            { t with
                steps := tr.steps.set stepIndex.toNat { st with status := "completed" },
                final_deliverable_media_type := tr.final_deliverable_media_type,
                updated_at := now }), 0⟩) := by
  refine ⟨?_, ?_, ?_⟩
  · intro hl hm
    unfold updateProjectTrackStepStatus
    simp [hfind, hge, hlt, hstep, hfin, hl, hm]
  · unfold updateProjectTrackStepStatus
    simp [hfind, hge, hlt, hstep, hfin]
  · intro hnot
    have hb : (strTruthy linkValue && strTruthy finalMediaType) = false := by
      cases hl : strTruthy linkValue
      · simp
      · cases hm : strTruthy finalMediaType
        · simp
        · exact absurd ⟨hl, hm⟩ hnot
    unfold updateProjectTrackStepStatus
    simp [hfind, hge, hlt, hstep, hfin, hb]

/-- C4 witness: the merge on the concrete pending track: a matching
descriptor without its own timestamp keeps status `"completed"` and
timestamp 5; a descriptor without `comment_id` comes out `"pending"`;
and the owning editor's call persists merged steps plus the original
final step. -/
theorem claim4_structure_merge_witness :
    (structureStep pendingTrack.steps 0 descrNoTs).status = "completed" ∧
    (structureStep pendingTrack.steps 0 descrNoTs).metadata.bind StepMetadata.timestamp
        = some 5 ∧
    (structureStep pendingTrack.steps 0 descrNoCid).status = "pending" ∧
    (updateTrackStructure baseStore (some edUser) "t1" [descrNoTs] "now").res = Except.ok () ∧
    findTrack (updateTrackStructure baseStore (some edUser) "t1" [descrNoTs] "now").store "t1" =
      some { pendingTrack with
          steps := mapWithIdx (structureStep pendingTrack.steps) 0 [descrNoTs] ++ [finishStep],
          updated_at := "now" } :=
  ⟨((claim4_structure_merge).1 pendingTrack.steps 0 descrNoTs "c1" commentStep1
      (by decide) (by decide) (by decide) (by decide)).1,
   ((claim4_structure_merge).1 pendingTrack.steps 0 descrNoTs "c1" commentStep1
      (by decide) (by decide) (by decide) (by decide)).2 (by decide),
   (claim4_structure_merge).2.1 pendingTrack.steps 0 descrNoCid (Or.inl (by decide)),
   ((claim4_structure_merge).2.2 baseStore edUser "t1" "now" [descrNoTs] edProfile pendingTrack
      proj1 finishStep (by decide) (by decide) (by decide) (by decide) (by decide) (by decide)
      (by decide)).1,
   ((claim4_structure_merge).2.2 baseStore edUser "t1" "now" [descrNoTs] edProfile pendingTrack
      proj1 finishStep (by decide) (by decide) (by decide) (by decide) (by decide) (by decide)
      (by decide)).2⟩

/-- C9 witness: on the concrete pending track, completing the final
step with link and media type records both; re-pending clears both; and
completing with neither provided still succeeds, leaving both as they
were. -/
theorem claim9_final_step_deliverable_witness :
    updateProjectTrackStepStatus baseStore "t1" 1 "completed" (some "https://d/v") (some "video")
        "now" =
      ⟨Except.ok (),
        updateTrack baseStore "t1" (fun t =>
          { t with
              steps := pendingTrack.steps.set 1
                { finishStep with status := "completed", deliverable_link := some "https://d/v" },
              final_deliverable_media_type := some "video",
              updated_at := "now" }), 0⟩ ∧
    updateProjectTrackStepStatus baseStore "t1" 1 "pending" none none "now" =
      ⟨Except.ok (),
        updateTrack baseStore "t1" (fun t =>
          { t with
              steps := pendingTrack.steps.set 1
                { finishStep with status := "pending", deliverable_link := none },
              final_deliverable_media_type := none,
              updated_at := "now" }), 0⟩ ∧
    updateProjectTrackStepStatus baseStore "t1" 1 "completed" none none "now" =
      ⟨Except.ok (),
        updateTrack baseStore "t1" (fun t =>
          { t with
              steps := pendingTrack.steps.set 1 { finishStep with status := "completed" },
              final_deliverable_media_type := pendingTrack.final_deliverable_media_type,
              updated_at := "now" }), 0⟩ :=
  ⟨(claim9_final_step_deliverable baseStore "t1" 1 (some "https://d/v") (some "video") "now"
      pendingTrack finishStep (by decide) (by decide) (by decide) (by decide) (by decide)).1
      (by decide) (by decide),
   (claim9_final_step_deliverable baseStore "t1" 1 none none "now"
      pendingTrack finishStep (by decide) (by decide) (by decide) (by decide) (by decide)).2.1,
   (claim9_final_step_deliverable baseStore "t1" 1 none none "now"
      pendingTrack finishStep (by decide) (by decide) (by decide) (by decide) (by decide)).2.2
      (by decide)⟩

theorem mapWithIdx_forall {α β : Type} (f : Nat → α → β) (P : β → Prop)
    (hf : ∀ i a, P (f i a)) :
    ∀ (i : Nat) (l : List α) (b : β), b ∈ mapWithIdx f i l → P b := by
  intro i l
  induction l generalizing i with
  | nil => intro b hb; simp [mapWithIdx] at hb
  | cons a tail ih =>
    intro b hb
    simp only [mapWithIdx, List.mem_cons] at hb
    rcases hb with h | h
    · rw [h]; exact hf i a
    · exact ih (i + 1) b h

theorem finalInvariant_append (cs : List Step) (fin : Step)
    (h : ∀ st ∈ cs, st.is_final = false) (hfin : fin.is_final = true) :
    finalInvariant (cs ++ [fin]) := by
  constructor
  · have h0 : cs.countP (fun st => st.is_final) = 0 := by
      rw [List.countP_eq_zero]
      intro a ha
      simp [h a ha]
    rw [List.countP_append, h0, List.countP_cons]
    simp [hfin]
  · rw [List.getLast?_concat]
    simp [hfin]

theorem deliverSteps_not_final (host : ImageFile → String) (now : String) :
    ∀ (cs : List InComment) (i : Nat) (out : List Step) (k : Nat),
      deliverSteps host now cs i = (Except.ok out, k) → ∀ st ∈ out, st.is_final = false := by
  intro cs
  induction cs with
  | nil =>
    intro i out k h st hmem
    simp only [deliverSteps, Prod.mk.injEq] at h
    obtain ⟨h1, _⟩ := h
    cases h1
    simp at hmem
  | cons c rest ih =>
    intro i out k h st hmem
    unfold deliverSteps at h
    dsimp only at h
    split at h
    · simp at h
    · split at h
      · rename_i xa urls hpr xb rest2 n2 heq2
        simp only [Prod.mk.injEq, Except.ok.injEq] at h
        obtain ⟨h1, _⟩ := h
        cases h1
        rcases List.mem_cons.mp hmem with hm | hm
        · rw [hm]
        · exact ih (i + 1) rest2 n2 heq2 st hm
      · simp at h

theorem createSteps_not_final (host : ImageFile → String) (now : String) :
    ∀ (cs : List InComment) (i : Nat) (out : List Step) (k : Nat),
      createSteps host now cs i = (Except.ok out, k) → ∀ st ∈ out, st.is_final = false := by
  intro cs
  induction cs with
  | nil =>
    intro i out k h st hmem
    simp only [createSteps, Prod.mk.injEq] at h
    obtain ⟨h1, _⟩ := h
    cases h1
    simp at hmem
  | cons c rest ih =>
    intro i out k h st hmem
    unfold createSteps at h
    dsimp only at h
    split at h
    · simp at h
    · split at h
      · rename_i xa urls hpr xb rest2 n2 heq2
        simp only [Prod.mk.injEq, Except.ok.injEq] at h
        obtain ⟨h1, _⟩ := h
        cases h1
        rcases List.mem_cons.mp hmem with hm | hm
        · rw [hm]
        · exact ih (i + 1) rest2 n2 heq2 st hm
      · simp at h

theorem find?_map_track_none (l : List Track) (tid tid2 : String) (f : Track → Track)
    (hid : ∀ t, (f t).id = t.id)
    (h : l.find? (fun t => t.id == tid2) = none) :
    (l.map (fun t => if t.id == tid then f t else t)).find? (fun t => t.id == tid2) = none := by
  induction l with
  | nil => rfl
  | cons t tail ih =>
    by_cases hc : (t.id == tid2) = true
    · simp [List.find?, hc] at h
    · have hcf : (t.id == tid2) = false := by simpa using hc
      simp only [List.find?, hcf] at h
      have hhead : ((if t.id == tid then f t else t).id == tid2) = false := by
        by_cases h2 : (t.id == tid) = true
        · rw [if_pos h2, hid t]; exact hcf
        · rw [if_neg h2]; exact hcf
      simp only [List.map_cons, List.find?, hhead]
      exact ih h

theorem find?_append_right {α : Type} (l1 l2 : List α) (p : α → Bool)
    (h : l1.find? p = none) : (l1 ++ l2).find? p = l2.find? p := by
  induction l1 with
  | nil => rfl
  | cons a tail ih =>
    by_cases hc : p a = true
    · simp [List.find?, hc] at h
    · have hcf : p a = false := by simpa using hc
      simp only [List.find?, hcf] at h
      simp only [List.cons_append, List.find?, hcf]
      exact ih h

theorem structureStep_not_final (steps : List Step) (i : Nat) (info : NewStepInfo) :
    (structureStep steps i info).is_final = false := rfl

/-- C3: every operation that writes a steps list — round creation
(`deliverInitialRound`, `createInitialRound`), the request-revisions
round construction, and `updateTrackStructure` (which re-appends the
original final step and forces `is_final = false` on every mapped
step) — persists a list with exactly one final step sitting at the last
position. -/
theorem claim3_final_step_invariant :
    (∀ (host : ImageFile → String) (s : Store) (trackId link : String)
        (comments : List InComment) (now : String) (tr0 : Track) (cs : List Step) (k : Nat),
      s.project_tracks.find? (fun t => t.id == trackId && t.round_number == 1) = some tr0 →
      deliverSteps host now comments 0 = (Except.ok cs, k) →
      (deliverInitialRound host s trackId link comments now).res = Except.ok () ∧
      ∀ tr', findTrack (deliverInitialRound host s trackId link comments now).store trackId
          = some tr' → finalInvariant tr'.steps) ∧
    (∀ (host : ImageFile → String) (s : Store) (projectId trackId : String)
        (comments : List InComment) (now : String) (tr0 : Track) (cs : List Step) (k : Nat),
      s.project_tracks.find? (fun t => t.id == trackId && t.round_number == 1) = some tr0 →
      createSteps host now comments 0 = (Except.ok cs, k) →
      (createInitialRound host s projectId trackId comments now).res = Except.ok () ∧
      ∀ tr', findTrack (createInitialRound host s projectId trackId comments now).store trackId
          = some tr' → finalInvariant tr'.steps) ∧
    (∀ (s : Store) (trackId newTrackId now : String) (tr : Track),
      findTrack s trackId = some tr → tr.client_decision = "pending" →
      findTrack s newTrackId = none →
      (clientRequestRevisions s trackId newTrackId now).res = Except.ok () ∧
      ∀ tr', findTrack (clientRequestRevisions s trackId newTrackId now).store newTrackId
          = some tr' → finalInvariant tr'.steps) ∧
    (∀ (s : Store) (u : User) (trackId now : String) (infos : List NewStepInfo)
        (prof : EditorProfile) (tr : Track) (p : Project) (fin : Step),
      trackId ≠ "" → findProfile s u.id = some prof → findTrack s trackId = some tr →
      findProject s tr.project_id = some p → p.editor_id = prof.id →
      tr.client_decision = "pending" → tr.steps.find? (fun st => st.is_final) = some fin →
      (updateTrackStructure s (some u) trackId infos now).res = Except.ok () ∧
      ∀ tr', findTrack (updateTrackStructure s (some u) trackId infos now).store trackId
          = some tr' → finalInvariant tr'.steps) := by
  refine ⟨?_, ?_, ?_, ?_⟩
  · intro host s trackId link comments now tr0 cs k hfind0 hdel
    unfold deliverInitialRound
    simp only [hfind0, hdel]
    refine ⟨by trivial, ?_⟩
    intro tr' h
    rw [findTrack_updateTrack s trackId
        (fun t => { t with
            steps := cs ++
              [{ name := none,
                 status := "completed",
                 is_final := true,
                 deliverable_link := some link,
                 metadata := none }],
            status := "in_review",
            updated_at := now })
        (fun t => rfl)] at h
    cases hft : findTrack s trackId with
    | none => rw [hft] at h; cases h
    | some t0 =>
      rw [hft] at h
      simp only [Option.map, Option.some.injEq] at h
      rw [← h]
      exact finalInvariant_append cs _ (deliverSteps_not_final host now comments 0 cs k hdel) rfl
  · intro host s projectId trackId comments now tr0 cs k hfind0 hcre
    unfold createInitialRound
    simp only [hfind0, hcre]
    refine ⟨by trivial, ?_⟩
    intro tr' h
    rw [findTrack_updateTrack s trackId
        (fun t => { t with
            steps := cs ++
              [{ name := some "Finish",
                 status := "pending",
                 is_final := true,
                 deliverable_link := none,
                 metadata := none }],
            status := "in_progress",
            updated_at := now })
        (fun t => rfl)] at h
    cases hft : findTrack s trackId with
    | none => rw [hft] at h; cases h
    | some t0 =>
      rw [hft] at h
      simp only [Option.map, Option.some.injEq] at h
      rw [← h]
      exact finalInvariant_append cs _ (createSteps_not_final host now comments 0 cs k hcre) rfl
  · intro s trackId newTrackId now tr hfind hdec hfresh
    have bdec : (tr.client_decision != "pending") = false := by simp [hdec]
    unfold clientRequestRevisions
    simp only [hfind, bdec, Bool.false_eq_true, if_false]
    refine ⟨by trivial, ?_⟩
    intro tr' h
    unfold handle_client_revision_request_v3 findTrack at h
    simp only [updateTrack] at h
    rw [find?_append_right] at h
    · simp only [List.find?, beq_self_eq_true] at h
      cases h
      refine finalInvariant_append _ _ ?_ rfl
      exact mapWithIdx_forall _ (fun (st : Step) => st.is_final = false) (fun i c => rfl) 0 _
    · exact find?_map_track_none s.project_tracks trackId newTrackId _ (fun t => rfl)
        (by simpa [findTrack] using hfresh)
  · intro s u trackId now infos prof tr p fin h1 hprof hfindT hfindP hed hdec hfin
    have b1 : (trackId == "") = false := by simpa using h1
    have bed : (p.editor_id != prof.id) = false := by simpa using hed
    have bdec : (tr.client_decision != "pending") = false := by simp [hdec]
    unfold updateTrackStructure
    simp only [hprof, hfindT, hfindP, b1, bed, bdec, hfin, Bool.false_eq_true, if_false]
    refine ⟨by trivial, ?_⟩
    intro tr' h
    rw [findTrack_updateTrack s trackId
        (fun t => { t with
            steps := mapWithIdx (structureStep tr.steps) 0 infos ++ [fin],
            updated_at := now })
        (fun t => rfl), hfindT] at h
    simp only [Option.map, Option.some.injEq] at h
    rw [← h]
    refine finalInvariant_append _ _ ?_ (by simpa using List.find?_some hfin)
    exact mapWithIdx_forall _ (fun (st : Step) => st.is_final = false)
      (fun i info => structureStep_not_final tr.steps i info) 0 _

/-- C3 witness: the four concrete runs succeed and the persisted
steps lists all satisfy the invariant. -/
theorem claim3_final_step_invariant_witness :
    (deliverInitialRound hostFx baseStore "t1" "https://d/v" [] "now").res = Except.ok () ∧
    finalInvariant deliveredTrack.steps ∧
    (createInitialRound hostFx baseStore "p1" "t1" [] "now").res = Except.ok () ∧
    finalInvariant createdTrack.steps ∧
    (clientRequestRevisions baseStore "t1" "t2" "now").res = Except.ok () ∧
    finalInvariant round2Track.steps ∧
    (updateTrackStructure baseStore (some edUser) "t1" [descrNoCid] "now").res = Except.ok () ∧
    finalInvariant restructuredTrack.steps :=
  ⟨((claim3_final_step_invariant).1 hostFx baseStore "t1" "https://d/v" [] "now" pendingTrack
      [] 0 (by decide) (by decide)).1,
   ((claim3_final_step_invariant).1 hostFx baseStore "t1" "https://d/v" [] "now" pendingTrack
      [] 0 (by decide) (by decide)).2 deliveredTrack (by decide),
   ((claim3_final_step_invariant).2.1 hostFx baseStore "p1" "t1" [] "now" pendingTrack
      [] 0 (by decide) (by decide)).1,
   ((claim3_final_step_invariant).2.1 hostFx baseStore "p1" "t1" [] "now" pendingTrack
      [] 0 (by decide) (by decide)).2 createdTrack (by decide),
   ((claim3_final_step_invariant).2.2.1 baseStore "t1" "t2" "now" pendingTrack
      (by decide) (by decide) (by decide)).1,
   ((claim3_final_step_invariant).2.2.1 baseStore "t1" "t2" "now" pendingTrack
      (by decide) (by decide) (by decide)).2 round2Track (by decide),
   ((claim3_final_step_invariant).2.2.2 baseStore edUser "t1" "now" [descrNoCid] edProfile
      pendingTrack proj1 finishStep (by decide) (by decide) (by decide) (by decide) (by decide)
      (by decide) (by decide)).1,
   ((claim3_final_step_invariant).2.2.2 baseStore edUser "t1" "now" [descrNoCid] edProfile
      pendingTrack proj1 finishStep (by decide) (by decide) (by decide) (by decide) (by decide)
      (by decide) (by decide)).2 restructuredTrack (by decide)⟩

/-- C8 (amended): the per-file size/type validation of
`uploadImageToImgBB` runs before any network call, and the ≤ 4 batch
check of `addReviewComment` / `updateReviewComment` /
`updateStepContent` rejects over-large batches with zero upload calls —
but the bulk `updateAllStepContent` path has no such count check (see
the counterexample). -/
theorem claim8_upload_validation :
    (∀ (host : ImageFile → String) (s : Store) (user : Option User) (trackId : String)
        (ts : ℚ) (text cname : String) (files : List ImageFile) (links : Option (List Link))
        (cid now : String),
      trackId ≠ "" → (jsTrim text ≠ "" ∨ files ≠ []) → ¬ ts < 0 →
      MAX_IMAGES_PER_COMMENT < files.length →
      addReviewComment host s user trackId true ts text cname files links cid now =
        ⟨Except.error "Max 4 images.", s, 0⟩) ∧
    (∀ (host : ImageFile → String) (s : Store) (user : Option User) (commentId txt : String)
        (keep : List String) (cname : String) (files : List ImageFile) (c : ReviewComment)
        (tr : Track),
      commentId ≠ "" → findComment s commentId = some c → findTrack s c.track_id = some tr →
      isOwnComment user c.commenter_id = true → tr.client_decision = "pending" →
      files ≠ [] → MAX_IMAGES_PER_COMMENT < keep.length + files.length →
      updateReviewComment host s user commentId (some txt) (some keep) cname files =
        ⟨Except.error "Cannot save comment: Exceeds maximum of 4 images.", s, 0⟩) ∧
    (∀ (host : ImageFile → String) (s : Store) (u : User) (trackId : String) (stepIndex : Int)
        (textRaw : String) (keep : Option (List String)) (files : List ImageFile) (now : String)
        (prof : EditorProfile) (tr : Track) (p : Project) (st : Step),
      ¬ stepIndex < 0 → findTrack s trackId = some tr → findProject s tr.project_id = some p →
      findProfile s u.id = some prof → p.editor_id = prof.id → tr.client_decision = "pending" →
      ¬ (tr.steps.length : Int) ≤ stepIndex → tr.steps[stepIndex.toNat]? = some st →
      st.is_final = false → files ≠ [] →
      MAX_IMAGES_PER_COMMENT < (keep.getD []).length + files.length →
      updateStepContent host s (some u) trackId true stepIndex textRaw keep files now =
        ⟨Except.error "Cannot exceed 4 images in total.", s, 0⟩) ∧
    (∀ (host : ImageFile → String) (f : ImageFile),
      IMAGE_MAX_SIZE_BYTES < f.size →
      uploadImageToImgBB host f =
        (Except.error ("File \"" ++ f.name ++ "\" size exceeds 5MB limit."), 0)) ∧
    (∀ (host : ImageFile → String) (f : ImageFile),
      ¬ IMAGE_MAX_SIZE_BYTES < f.size →
      ACCEPTED_IMAGE_TYPES.contains f.contentType = false →
      uploadImageToImgBB host f =
        (Except.error ("File \"" ++ f.name ++ "\" has an invalid type. Only JPEG, PNG, WebP allowed."),
          0)) := by
  refine ⟨?_, ?_, ?_, ?_, ?_⟩
  · intro host s user trackId ts text cname files links cid now h1 h2 h3 h4
    have b1 : (trackId == "") = false := by simpa using h1
    have b2 : (jsTrim text == "" && files.isEmpty) = false := by
      rcases h2 with h | h
      · simp [h]
      · simp [h]
    unfold addReviewComment
    simp [b1, b2, h3, h4]
  · intro host s user commentId txt keep cname files c tr h1 hfindC hfindT hown hdec hfiles hcount
    have b1 : (commentId == "") = false := by simpa using h1
    have bdec : (tr.client_decision != "pending") = false := by simp [hdec]
    have bfiles : files.isEmpty = false := by simpa using hfiles
    unfold updateReviewComment
    simp [hfindC, hfindT, b1, hown, bdec, bfiles, hcount]
  · intro host s u trackId stepIndex textRaw keep files now prof tr p st
      hidx hfindT hfindP hprof hed hdec hbound hstep hfin hfiles hcount
    have bed : (p.editor_id == prof.id) = true := by simpa using hed
    have bdec : (tr.client_decision != "pending") = false := by simp [hdec]
    have bfiles : files.isEmpty = false := by simpa using hfiles
    unfold updateStepContent
    simp [hfindT, hfindP, hprof, hidx, bed, bdec, hbound, hstep, hfin, bfiles, hcount]
  · intro host f h
    unfold uploadImageToImgBB
    simp [h]
  · intro host f h1 h2
    have h2' : f.contentType ∉ ACCEPTED_IMAGE_TYPES := by simpa using h2
    unfold uploadImageToImgBB
    simp [h1, h2']

/-- C8 witness: a 5-image batch against each guarded mutation fails
with the count error and zero upload calls; a 6 MiB file and a GIF file
are rejected by `uploadImageToImgBB` itself with zero network calls. -/
theorem claim8_upload_validation_witness :
    addReviewComment hostFx baseStore none "t1" true 1 "hi" "" fiveFiles none "c9" "now" =
      ⟨Except.error "Max 4 images.", baseStore, 0⟩ ∧
    updateReviewComment hostFx baseStore none "c1" (some "hi") (some []) "" fiveFiles =
      ⟨Except.error "Cannot save comment: Exceeds maximum of 4 images.", baseStore, 0⟩ ∧
    updateStepContent hostFx baseStore (some edUser) "t1" true 0 "x" none fiveFiles "now" =
      ⟨Except.error "Cannot exceed 4 images in total.", baseStore, 0⟩ ∧
    uploadImageToImgBB hostFx ⟨"big.png", 6 * 1024 * 1024, "image/png"⟩ =
      (Except.error "File \"big.png\" size exceeds 5MB limit.", 0) ∧
    uploadImageToImgBB hostFx ⟨"anim.gif", 100, "image/gif"⟩ =
      (Except.error "File \"anim.gif\" has an invalid type. Only JPEG, PNG, WebP allowed.", 0) :=
  ⟨(claim8_upload_validation).1 hostFx baseStore none "t1" 1 "hi" "" fiveFiles none "c9" "now"
      (by decide) (Or.inl (by decide)) (by decide) (by decide),
   (claim8_upload_validation).2.1 hostFx baseStore none "c1" "hi" [] "" fiveFiles
      (mkComment "c1" 2 none) pendingTrack (by decide) (by decide) (by decide) (by decide)
      (by decide) (by decide) (by decide),
   (claim8_upload_validation).2.2.1 hostFx baseStore edUser "t1" 0 "x" none fiveFiles "now"
      edProfile pendingTrack proj1 commentStep1 (by decide) (by decide) (by decide) (by decide)
      (by decide) (by decide) (by decide) (by decide) (by decide) (by decide) (by decide),
   (claim8_upload_validation).2.2.2.1 hostFx ⟨"big.png", 6 * 1024 * 1024, "image/png"⟩ (by decide),
   (claim8_upload_validation).2.2.2.2 hostFx ⟨"anim.gif", 100, "image/gif"⟩ (by decide) (by decide)⟩

/-! ## C7: scan-shape lemmas for the encoder round trip -/

/-- A successful regex attempt takes one of the two scheme branches. -/
theorem match_shape (l tok : List Char) (h : matchUrlHere l = some tok) :
    (l.take 8 = schemeHttps ∧
      tok = schemeHttps ++ (l.drop 8).takeWhile (fun c => !urlStop c) ∧
      (l.drop 8).takeWhile (fun c => !urlStop c) ≠ []) ∨
    (l.take 8 ≠ schemeHttps ∧ l.take 7 = schemeHttp ∧
      tok = schemeHttp ++ (l.drop 7).takeWhile (fun c => !urlStop c) ∧
      (l.drop 7).takeWhile (fun c => !urlStop c) ≠ []) := by
  unfold matchUrlHere at h
  dsimp only at h
  by_cases h8 : l.take 8 = schemeHttps
  · rw [if_pos h8] at h
    by_cases hb : (l.drop 8).takeWhile (fun c => !urlStop c) = []
    · rw [if_pos hb] at h; cases h
    · rw [if_neg hb] at h
      exact Or.inl ⟨h8, (Option.some.inj h).symm, hb⟩
  · rw [if_neg h8] at h
    by_cases h7 : l.take 7 = schemeHttp
    · rw [if_pos h7] at h
      by_cases hb : (l.drop 7).takeWhile (fun c => !urlStop c) = []
      · rw [if_pos hb] at h; cases h
      · rw [if_neg hb] at h
        exact Or.inr ⟨h8, h7, (Option.some.inj h).symm, hb⟩
    · rw [if_neg h7] at h; cases h

/-- A match is a nonempty initial segment of the scanned text. -/
theorem match_split (l tok : List Char) (h : matchUrlHere l = some tok) :
    ∃ z, l = tok ++ z ∧ tok ≠ [] := by
  rcases match_shape l tok h with ⟨h8, htok, hne⟩ | ⟨-, h7, htok, hne⟩
  · refine ⟨(l.drop 8).dropWhile (fun c => !urlStop c), ?_, ?_⟩
    · rw [htok, List.append_assoc, List.takeWhile_append_dropWhile, ← h8,
        List.take_append_drop]
    · rw [htok]; simp [schemeHttps]
  · refine ⟨(l.drop 7).dropWhile (fun c => !urlStop c), ?_, ?_⟩
    · rw [htok, List.append_assoc, List.takeWhile_append_dropWhile, ← h7,
        List.take_append_drop]
    · rw [htok]; simp [schemeHttp]

/-- A match token is a well-formed URL token. -/
theorem match_urlTok (l tok : List Char) (h : matchUrlHere l = some tok) : UrlTok tok := by
  rcases match_shape l tok h with ⟨h8, htok, hne⟩ | ⟨-, h7, htok, hne⟩
  · exact ⟨schemeHttps, _, Or.inl rfl, htok, hne,
      fun c hc => by simpa using List.mem_takeWhile_imp hc⟩
  · exact ⟨schemeHttp, _, Or.inr rfl, htok, hne,
      fun c hc => by simpa using List.mem_takeWhile_imp hc⟩

/-- A URL token starts with the letter h. -/
theorem urlTok_cons (u : List Char) (h : UrlTok u) : ∃ v, u = 'h' :: v := by
  obtain ⟨scheme, body, hs, hu, -, -⟩ := h
  rcases hs with hs | hs <;> subst hs
  · exact ⟨['t', 't', 'p', 's', ':', '/', '/'] ++ body, by rw [hu]; rfl⟩
  · exact ⟨['t', 't', 'p', ':', '/', '/'] ++ body, by rw [hu]; rfl⟩

/-- `takeWhile` passes over a block it accepts entirely. -/
theorem takeWhile_all_append (p : Char → Bool) (A B : List Char)
    (hA : ∀ c ∈ A, p c = true) :
    (A ++ B).takeWhile p = A ++ B.takeWhile p := by
  induction A with
  | nil => simp
  | cons a A ih =>
    simp only [List.cons_append, List.takeWhile_cons, hA a (by simp), if_true]
    rw [ih (fun c hc => hA c (by simp [hc]))]

/-- Wherever a URL token heads the text, the regex matches, extending
the token by the following run of non-stop characters. -/
theorem urlTok_match (u z : List Char) (h : UrlTok u) :
    matchUrlHere (u ++ z) = some (u ++ z.takeWhile (fun c => !urlStop c)) := by
  obtain ⟨scheme, body, hs, hu, hne, hbody⟩ := h
  have hbody' : ∀ c ∈ body, (!urlStop c) = true := fun c hc => by simp [hbody c hc]
  have hcat : body ++ z.takeWhile (fun c => !urlStop c) ≠ [] := by
    cases body with
    | nil => exact absurd rfl hne
    | cons b bs => simp
  rcases hs with hs | hs <;> subst hs <;> subst hu
  · have h8 : ((schemeHttps ++ body) ++ z).take 8 = schemeHttps := by
      rw [List.append_assoc]; exact List.take_left schemeHttps (body ++ z)
    have hd : ((schemeHttps ++ body) ++ z).drop 8 = body ++ z := by
      rw [List.append_assoc]; exact List.drop_left schemeHttps (body ++ z)
    unfold matchUrlHere
    rw [if_pos h8]
    dsimp only
    rw [hd, takeWhile_all_append _ _ _ hbody', if_neg hcat, List.append_assoc]
  · have h7 : ((schemeHttp ++ body) ++ z).take 7 = schemeHttp := by
      rw [List.append_assoc]; exact List.take_left schemeHttp (body ++ z)
    have hd : ((schemeHttp ++ body) ++ z).drop 7 = body ++ z := by
      rw [List.append_assoc]; exact List.drop_left schemeHttp (body ++ z)
    have h8 : ((schemeHttp ++ body) ++ z).take 8 ≠ schemeHttps := by
      intro hcontra
      cases body with
      | nil => exact hne rfl
      | cons b bs =>
        rw [show (schemeHttp ++ b :: bs) ++ z
              = 'h' :: 't' :: 't' :: 'p' :: ':' :: '/' :: '/' :: b :: (bs ++ z) from rfl]
          at hcontra
        simp [schemeHttps] at hcontra
    unfold matchUrlHere
    rw [if_neg h8, if_pos h7]
    dsimp only
    rw [hd, takeWhile_all_append _ _ _ hbody', if_neg hcat, List.append_assoc]

/-- The empty gap is clean in any context. -/
theorem gapClean_nil (ctx : List Char) : GapClean [] ctx := by
  intro g₁ g₂ hsplit hne
  exact absurd (List.append_eq_nil.mp hsplit.symm).2 hne

/-- Cleanness restricts to a tail of the gap. -/
theorem gapClean_cons (c : Char) (g ctx : List Char) (h : GapClean (c :: g) ctx) :
    GapClean g ctx := by
  intro g₁ g₂ hsplit hne
  exact h (c :: g₁) g₂ (by rw [hsplit]; rfl) hne

/-- With enough fuel the block scan reassembles to the text. -/
theorem glue_scanBlocks (fuel : Nat) : ∀ l : List Char, l.length ≤ fuel →
    glue (scanBlocksF fuel l).1 (scanBlocksF fuel l).2 = l := by
  induction fuel with
  | zero =>
    intro l hl
    have hln : l = [] := by
      cases l with
      | nil => rfl
      | cons c r => simp at hl
    subst hln
    rfl
  | succ f ih =>
    intro l hl
    cases l with
    | nil => rfl
    | cons c rest =>
      unfold scanBlocksF
      cases hm : matchUrlHere (c :: rest) with
      | some tok =>
        obtain ⟨z, hz, hne⟩ := match_split _ _ hm
        obtain ⟨n, hn⟩ : ∃ n, tok.length = n + 1 := by
          cases htok : tok with
          | nil => exact absurd htok hne
          | cons a as => exact ⟨as.length, by simp⟩
        have hzrest : rest.drop (tok.length - 1) = z := by
          have hdz := congrArg (List.drop tok.length) hz
          rw [List.drop_left] at hdz
          rw [hn, List.drop_succ_cons] at hdz
          rw [hn]
          simpa using hdz
        have hlz : z.length ≤ f := by
          have hlen := congrArg List.length hz
          simp only [List.length_cons, List.length_append, hn] at hlen
          simp only [List.length_cons] at hl
          omega
        simp only [hm]
        rw [hzrest]
        simp only [glue]
        rw [ih z hlz, List.nil_append, ← hz]
      | none =>
        have hrest : rest.length ≤ f := by
          simp only [List.length_cons] at hl
          omega
        have hglue := ih rest hrest
        simp only [hm]
        cases hr1 : (scanBlocksF f rest).1 with
        | nil =>
          simp only [hr1]
          rw [hr1] at hglue
          simp only [glue] at hglue ⊢
          rw [hglue]
        | cons b more =>
          obtain ⟨g, u⟩ := b
          simp only [hr1]
          rw [hr1] at hglue
          simp only [glue, List.cons_append] at hglue ⊢
          rw [hglue]

/-- The position-free view: the plain scan's matches are exactly the
block scan's tokens. -/
theorem scan_tokens (fuel : Nat) : ∀ (l : List Char) (i : Nat),
    (scanUrlsF fuel l i).map Prod.snd = (scanBlocksF fuel l).1.map Prod.snd := by
  induction fuel with
  | zero => intro l i; rfl
  | succ f ih =>
    intro l i
    cases l with
    | nil => rfl
    | cons c rest =>
      unfold scanUrlsF scanBlocksF
      cases hm : matchUrlHere (c :: rest) with
      | some tok => simp [hm, ih]
      | none =>
        simp only [hm]
        cases hr1 : (scanBlocksF f rest).1 with
        | nil =>
          simp only [hr1]
          have hi := ih rest (i + 1)
          rw [hr1] at hi
          simpa using hi
        | cons b more =>
          obtain ⟨g, u⟩ := b
          simp only [hr1]
          have hi := ih rest (i + 1)
          rw [hr1] at hi
          simpa using hi

/-- The scan invariant holds of the block scan: every gap is match-free
in its context and every token is the match found at its position. -/
theorem scanInv_scanBlocks (fuel : Nat) : ∀ l : List Char, l.length ≤ fuel →
    ScanInv (scanBlocksF fuel l).1 (scanBlocksF fuel l).2 := by
  induction fuel with
  | zero =>
    intro l hl
    simp only [scanBlocksF, ScanInv]
    exact gapClean_nil []
  | succ f ih =>
    intro l hl
    cases l with
    | nil =>
      simp only [scanBlocksF, ScanInv]
      exact gapClean_nil []
    | cons c rest =>
      unfold scanBlocksF
      cases hm : matchUrlHere (c :: rest) with
      | some tok =>
        obtain ⟨z, hz, hne⟩ := match_split _ _ hm
        obtain ⟨n, hn⟩ : ∃ n, tok.length = n + 1 := by
          cases htok : tok with
          | nil => exact absurd htok hne
          | cons a as => exact ⟨as.length, by simp⟩
        have hzrest : rest.drop (tok.length - 1) = z := by
          have hdz := congrArg (List.drop tok.length) hz
          rw [List.drop_left] at hdz
          rw [hn, List.drop_succ_cons] at hdz
          rw [hn]
          simpa using hdz
        have hlz : z.length ≤ f := by
          have hlen := congrArg List.length hz
          simp only [List.length_cons, List.length_append, hn] at hlen
          simp only [List.length_cons] at hl
          omega
        simp only [hm]
        rw [hzrest]
        simp only [ScanInv]
        refine ⟨gapClean_nil _, ?_, ih z hlz⟩
        rw [glue_scanBlocks f z hlz, ← hz]
        exact hm
      | none =>
        have hrest : rest.length ≤ f := by
          simp only [List.length_cons] at hl
          omega
        have ihr := ih rest hrest
        have hglue := glue_scanBlocks f rest hrest
        simp only [hm]
        cases hr1 : (scanBlocksF f rest).1 with
        | nil =>
          simp only [hr1]
          rw [hr1] at ihr hglue
          simp only [ScanInv] at ihr ⊢
          simp only [glue] at hglue
          intro g₁ g₂ hsplit hne
          cases g₁ with
          | nil =>
            simp only [List.nil_append] at hsplit
            rw [List.append_nil, ← hsplit, hglue]
            exact hm
          | cons d g₁ =>
            have h2 : (scanBlocksF f rest).2 = g₁ ++ g₂ := by
              simp only [List.cons_append, List.cons.injEq] at hsplit
              exact hsplit.2
            exact ihr g₁ g₂ h2 hne
        | cons b more =>
          obtain ⟨g, u⟩ := b
          simp only [hr1]
          rw [hr1] at ihr hglue
          simp only [ScanInv] at ihr ⊢
          obtain ⟨hgap, hmatch, hinv⟩ := ihr
          simp only [glue] at hglue
          refine ⟨?_, hmatch, hinv⟩
          intro g₁ g₂ hsplit hne
          cases g₁ with
          | nil =>
            simp only [List.nil_append] at hsplit
            rw [← hsplit, List.cons_append, ← List.append_assoc, hglue]
            exact hm
          | cons d g₁ =>
            have h2 : g = g₁ ++ g₂ := by
              simp only [List.cons_append, List.cons.injEq] at hsplit
              exact hsplit.2
            exact hgap g₁ g₂ h2 hne

/-! ## C7: occurrence and guard lemmas -/

/-- An occurrence of `pat` makes the first-occurrence search succeed. -/
theorem splitFirstOcc_isSome (pat b : List Char) : ∀ a : List Char,
    (splitFirstOcc pat (a ++ pat ++ b)).isSome = true := by
  intro a
  induction a with
  | nil =>
    simp only [List.nil_append]
    cases pat with
    | nil => cases b <;> simp [splitFirstOcc]
    | cons p pr =>
      have hc : p :: pr = (p :: (pr ++ b)).take (p :: pr).length := by
        rw [show p :: (pr ++ b) = (p :: pr) ++ b from rfl, List.take_left]
      rw [show (p :: pr) ++ b = p :: (pr ++ b) from rfl]
      unfold splitFirstOcc
      rw [if_pos hc]
      rfl
  | cons d a ih =>
    rw [show ((d :: a) ++ pat) ++ b = d :: (a ++ pat ++ b) from rfl]
    unfold splitFirstOcc
    by_cases hcond : pat = (d :: (a ++ pat ++ b)).take pat.length
    · rw [if_pos hcond]; rfl
    · rw [if_neg hcond]
      cases hres : splitFirstOcc pat (a ++ pat ++ b) with
      | none => rw [hres] at ih; simp at ih
      | some pr₂ =>
        obtain ⟨pre, post⟩ := pr₂
        rfl

/-- A failed first-occurrence search means no occurrence at all. -/
theorem noOcc_of_none (pat l : List Char) (h : splitFirstOcc pat l = none) :
    NoOcc pat l := by
  intro a b hl
  have hs := splitFirstOcc_isSome pat b a
  rw [← hl, h] at hs
  simp at hs

/-- Under a text free of `[LINK:`, the `encodeStep` guard never fires. -/
theorem guard_never (t : List Char) (hno : NoOcc lbTag t) (i : Nat) :
    ¬ (t.drop (i - 6)).take (min i 6) = lbTag := by
  intro h
  have hlen := congrArg List.length h
  simp only [List.length_take, lbTag, List.length_cons] at hlen
  have h6 : min i 6 = 6 := by omega
  rw [h6] at h
  apply hno (t.take (i - 6)) ((t.drop (i - 6)).drop 6)
  rw [List.append_assoc, ← h, List.take_append_drop, List.take_append_drop]

/-- Under a text free of `[LINK:`, every encoder step is the
guard-free step on the match alone. -/
theorem encodeStep_ng (t : List Char) (hno : NoOcc lbTag t)
    (st : List Char × List (List Char)) (m : Nat × List Char) :
    encodeStep t st m = encStepNG st m.2 := by
  unfold encodeStep encStepNG
  rw [if_neg (guard_never t hno m.1)]

/-- Under a text free of `[LINK:`, the encoder fold is the guard-free
fold over the matched tokens. -/
theorem foldl_guard_free (t : List Char) (hno : NoOcc lbTag t) :
    ∀ (ms : List (Nat × List Char)) (st : List Char × List (List Char)),
    ms.foldl (encodeStep t) st = (ms.map Prod.snd).foldl encStepNG st := by
  intro ms
  induction ms with
  | nil => intro st; rfl
  | cons m ms ih =>
    intro st
    simp only [List.foldl_cons, List.map_cons, encodeStep_ng t hno]
    exact ih _

/-- A text whose first seven characters read `http://` cannot also
start with `https://`. -/
theorem http_not_https (l : List Char) (h7 : l.take 7 = schemeHttp) :
    l.take 8 ≠ schemeHttps := by
  intro h8
  have h := congrArg (List.take 7) h8
  rw [List.take_take, show min 7 8 = 7 from rfl, h7] at h
  exact absurd h (by decide)

/-- The cleanness-transfer lemma: a position that starts no match when
followed by a non-stop character keeps starting no match when the
continuation is swapped for a placeholder (which begins with a bracket,
a character no scheme contains). -/
theorem nswap (y z₁ z₂ : List Char) (c₁ : Char) (hy : y ≠ [])
    (hc₁ : urlStop c₁ = false)
    (hnone : matchUrlHere (y ++ c₁ :: z₁) = none) :
    matchUrlHere (y ++ '[' :: z₂) = none := by
  have hyn : 1 ≤ y.length := by
    cases y with
    | nil => exact absurd rfl hy
    | cons a as => simp
  by_cases h8 : (y ++ '[' :: z₂).take 8 = schemeHttps
  · -- the whole https scheme must lie inside y
    have hylen : 8 ≤ y.length := by
      by_contra hlt
      push_neg at hlt
      obtain ⟨k, hk⟩ : ∃ k, 8 - y.length = k + 1 := ⟨8 - y.length - 1, by omega⟩
      rw [List.take_append_eq_append_take, hk, List.take_succ_cons,
        List.take_of_length_le (by omega)] at h8
      have hmem : '[' ∈ y ++ ('[' :: z₂.take k) :=
        List.mem_append_right y (List.mem_cons_self _ _)
      rw [h8] at hmem
      simp [schemeHttps] at hmem
    have h8y : y.take 8 = schemeHttps := by
      rw [List.take_append_of_le_length hylen] at h8
      exact h8
    have htk1 : (y ++ c₁ :: z₁).take 8 = schemeHttps := by
      rw [List.take_append_of_le_length hylen]
      exact h8y
    have hdrop : ∀ w : List Char, (y ++ w).drop 8 = y.drop 8 ++ w :=
      fun w => List.drop_append_of_le_length hylen
    unfold matchUrlHere at hnone ⊢
    dsimp only at hnone ⊢
    rw [if_pos htk1, hdrop] at hnone
    rw [if_pos h8, hdrop]
    by_cases hbody : (y.drop 8 ++ c₁ :: z₁).takeWhile (fun c => !urlStop c) = []
    · cases hdy : y.drop 8 with
      | nil =>
        rw [hdy] at hbody
        simp [List.takeWhile_cons, hc₁] at hbody
      | cons d dy =>
        rw [hdy] at hbody
        simp only [List.cons_append, List.takeWhile_cons] at hbody
        by_cases hd : (!urlStop d) = true
        · rw [if_pos hd] at hbody; cases hbody
        · simp only [List.cons_append, List.takeWhile_cons, if_neg hd]
          simp
    · rw [if_neg hbody] at hnone
      cases hnone
  · by_cases h7 : (y ++ '[' :: z₂).take 7 = schemeHttp
    · -- the whole http scheme must lie inside y
      have hylen : 7 ≤ y.length := by
        by_contra hlt
        push_neg at hlt
        obtain ⟨k, hk⟩ : ∃ k, 7 - y.length = k + 1 := ⟨7 - y.length - 1, by omega⟩
        rw [List.take_append_eq_append_take, hk, List.take_succ_cons,
          List.take_of_length_le (by omega)] at h7
        have hmem : '[' ∈ y ++ ('[' :: z₂.take k) :=
          List.mem_append_right y (List.mem_cons_self _ _)
        rw [h7] at hmem
        simp [schemeHttp] at hmem
      have h7y : y.take 7 = schemeHttp := by
        rw [List.take_append_of_le_length hylen] at h7
        exact h7
      have htk1 : (y ++ c₁ :: z₁).take 7 = schemeHttp := by
        rw [List.take_append_of_le_length hylen]
        exact h7y
      have h8c1 : (y ++ c₁ :: z₁).take 8 ≠ schemeHttps := http_not_https _ htk1
      have hdrop : ∀ w : List Char, (y ++ w).drop 7 = y.drop 7 ++ w :=
        fun w => List.drop_append_of_le_length hylen
      unfold matchUrlHere at hnone ⊢
      dsimp only at hnone ⊢
      rw [if_neg h8c1, if_pos htk1, hdrop] at hnone
      rw [if_neg h8, if_pos h7, hdrop]
      by_cases hbody : (y.drop 7 ++ c₁ :: z₁).takeWhile (fun c => !urlStop c) = []
      · cases hdy : y.drop 7 with
        | nil =>
          rw [hdy] at hbody
          simp [List.takeWhile_cons, hc₁] at hbody
        | cons d dy =>
          rw [hdy] at hbody
          simp only [List.cons_append, List.takeWhile_cons] at hbody
          by_cases hd : (!urlStop d) = true
          · rw [if_pos hd] at hbody; cases hbody
          · simp only [List.cons_append, List.takeWhile_cons, if_neg hd]
            simp
      · rw [if_neg hbody] at hnone
        cases hnone
    · unfold matchUrlHere
      rw [if_neg h8, if_neg h7]

/-! ## C7: cleanness of encoded prefixes -/

/-- The characters emitted for a digit are decimal digits. -/
theorem digitChar_digit (m : Nat) (h : m < 10) : isDigitChar (Nat.digitChar m) = true := by
  interval_cases m <;> decide

/-- Every character of a rendered number is a decimal digit. -/
theorem natDecimal_digits (fuel : Nat) : ∀ n, ∀ c ∈ natDecimalF fuel n, isDigitChar c = true := by
  induction fuel with
  | zero =>
    intro n c hc
    simp only [natDecimalF, List.mem_singleton] at hc
    subst hc
    exact digitChar_digit _ (Nat.mod_lt _ (by omega))
  | succ f ih =>
    intro n c hc
    simp only [natDecimalF] at hc
    by_cases hn : n < 10
    · rw [if_pos hn] at hc
      simp only [List.mem_singleton] at hc
      subst hc
      exact digitChar_digit _ hn
    · rw [if_neg hn] at hc
      rcases List.mem_append.mp hc with hc | hc
      · exact ih _ c hc
      · simp only [List.mem_singleton] at hc
        subst hc
        exact digitChar_digit _ (Nat.mod_lt _ (by omega))

/-- No character of a placeholder is the letter h. -/
theorem phChars_ne_h (k : Nat) (c : Char) (hc : c ∈ phChars k) : ¬ c = 'h' := by
  intro he
  subst he
  unfold phChars at hc
  rcases List.mem_append.mp hc with hc | hc
  · rcases List.mem_append.mp hc with hc | hc
    · simp [lbTag] at hc
    · exact absurd (natDecimal_digits _ _ _ hc) (by decide)
  · simp at hc

/-- A placeholder starts with an opening bracket. -/
theorem phChars_eq_cons (k : Nat) :
    phChars k = '[' :: ('L' :: 'I' :: 'N' :: 'K' :: ':' :: (natDecimal k ++ [']'])) := rfl

/-- Text starting with anything but an h starts no match. -/
theorem match_none_of_head (c : Char) (l : List Char) (hc : ¬ c = 'h') :
    matchUrlHere (c :: l) = none := by
  have h8 : ¬ (c :: l).take 8 = schemeHttps := by
    intro h
    rw [show (8 : Nat) = 7 + 1 from rfl, List.take_succ_cons] at h
    injection h with h1 h2
    exact hc h1
  have h7 : ¬ (c :: l).take 7 = schemeHttp := by
    intro h
    rw [show (7 : Nat) = 6 + 1 from rfl, List.take_succ_cons] at h
    injection h with h1 h2
    exact hc h1
  unfold matchUrlHere
  rw [if_neg h8, if_neg h7]

/-- The empty prefix is clean for every continuation. -/
theorem eclean_nil : ECleanAll [] := by
  intro a y hsplit hne z
  exact absurd (List.append_eq_nil.mp hsplit.symm).2 hne

/-- A gap that is clean before its token stays clean before a
placeholder, whatever follows it. -/
theorem gapClean_ph (g u tail : List Char) (hu : UrlTok u)
    (hclean : GapClean g (u ++ tail)) :
    ∀ g₁ g₂, g = g₁ ++ g₂ → g₂ ≠ [] → ∀ z, matchUrlHere (g₂ ++ '[' :: z) = none := by
  intro g₁ g₂ hsplit hne z
  obtain ⟨v, hv⟩ := urlTok_cons u hu
  have h1 := hclean g₁ g₂ hsplit hne
  rw [hv] at h1
  simp only [List.cons_append] at h1
  exact nswap g₂ (v ++ tail) z 'h' hne (by decide) h1

/-- Appending a clean gap and a placeholder preserves prefix cleanness. -/
theorem eclean_extend (E g : List Char) (k : Nat)
    (hE : ECleanAll E)
    (hg : ∀ g₁ g₂, g = g₁ ++ g₂ → g₂ ≠ [] → ∀ z, matchUrlHere (g₂ ++ '[' :: z) = none) :
    ECleanAll (E ++ (g ++ phChars k)) := by
  intro a y hsplit hne z
  rcases List.append_eq_append_iff.mp hsplit with ⟨w, hw1, hw2⟩ | ⟨w, hw1, hw2⟩
  · -- a = E ++ w and g ++ phChars k = w ++ y : y lies inside the gap/placeholder part
    rcases List.append_eq_append_iff.mp hw2 with ⟨v, hv1, hv2⟩ | ⟨v, hv1, hv2⟩
    · -- w = g ++ v and phChars k = v ++ y : y is a nonempty suffix of the placeholder
      cases y with
      | nil => exact absurd rfl hne
      | cons d y' =>
        have hd : d ∈ phChars k := by
          rw [hv2]
          exact List.mem_append_right v (List.mem_cons_self _ _)
        rw [List.cons_append]
        exact match_none_of_head d _ (phChars_ne_h k d hd)
    · -- g = w ++ v and y = v ++ phChars k : y starts inside the gap
      cases v with
      | nil =>
        rw [List.nil_append] at hv2
        rw [hv2, phChars_eq_cons, List.cons_append]
        exact match_none_of_head '[' _ (by decide)
      | cons d v' =>
        rw [hv2, List.append_assoc, phChars_eq_cons, List.cons_append]
        exact hg w (d :: v') hv1 (by simp) _
  · -- E = a ++ w and y = w ++ (g ++ phChars k) : y starts inside E or at its end
    cases w with
    | nil =>
      rw [List.nil_append] at hw2
      rw [hw2, List.append_assoc, phChars_eq_cons, List.cons_append]
      cases g with
      | nil =>
        rw [List.nil_append]
        exact match_none_of_head '[' _ (by decide)
      | cons d g' =>
        exact hg [] (d :: g') rfl (by simp) _
    | cons d w' =>
      rw [hw2, List.append_assoc]
      exact hE a (d :: w') hw1 (by simp) ((g ++ phChars k) ++ z)

/-! ## C7: the first occurrence of each token is its own position -/

/-- A clean trailing gap extends a clean encoded prefix. -/
theorem gapClean_of_eclean_gap (E g ctx : List Char) (hE : ECleanAll E)
    (hg : GapClean g ctx) : GapClean (E ++ g) ctx := by
  intro g₁ g₂ hsplit hne
  rcases List.append_eq_append_iff.mp hsplit with ⟨w, hw1, hw2⟩ | ⟨w, hw1, hw2⟩
  · -- g₁ = E ++ w and g = w ++ g₂ : the suffix starts inside the gap
    exact hg w g₂ hw2 hne
  · -- E = g₁ ++ w and g₂ = w ++ g : the suffix starts inside E
    cases w with
    | nil =>
      rw [List.nil_append] at hw2
      rw [hw2]
      rw [hw2] at hne
      cases g with
      | nil => exact absurd rfl hne
      | cons d g' => exact hg [] (d :: g') rfl (by simp)
    | cons d w' =>
      rw [hw2, List.append_assoc]
      exact hE g₁ (d :: w') hw1 (by simp) (g ++ ctx)

/-- The token at the head of the text is found at position zero. -/
theorem splitFirstOcc_here (u T : List Char) (hne : u ≠ []) :
    splitFirstOcc u (u ++ T) = some ([], T) := by
  cases u with
  | nil => exact absurd rfl hne
  | cons p pr =>
    have hc : p :: pr = (p :: (pr ++ T)).take (p :: pr).length := by
      rw [show p :: (pr ++ T) = (p :: pr) ++ T from rfl, List.take_left]
    have hd : (p :: (pr ++ T)).drop (p :: pr).length = T := by
      rw [show p :: (pr ++ T) = (p :: pr) ++ T from rfl, List.drop_left]
    rw [show (p :: pr) ++ T = p :: (pr ++ T) from rfl]
    unfold splitFirstOcc
    rw [if_pos hc, hd]

/-- With a clean prefix before it, a URL token's first occurrence is
its own position. -/
theorem splitFirstOcc_exact (u T : List Char) (hu : UrlTok u) :
    ∀ pre : List Char, GapClean pre (u ++ T) →
    splitFirstOcc u (pre ++ (u ++ T)) = some (pre, T) := by
  have hune : u ≠ [] := by
    obtain ⟨v, hv⟩ := urlTok_cons u hu
    rw [hv]; simp
  intro pre
  induction pre with
  | nil =>
    intro _
    rw [List.nil_append]
    exact splitFirstOcc_here u T hune
  | cons d pre ih =>
    intro hclean
    have hnone : matchUrlHere (d :: (pre ++ (u ++ T))) = none :=
      hclean [] (d :: pre) rfl (by simp)
    have hcond : ¬ u = (d :: (pre ++ (u ++ T))).take u.length := by
      intro heq
      have hdecomp : d :: (pre ++ (u ++ T))
          = u ++ (d :: (pre ++ (u ++ T))).drop u.length := by
        conv_lhs => rw [← List.take_append_drop u.length (d :: (pre ++ (u ++ T)))]
        rw [← heq]
      have hsome := urlTok_match u ((d :: (pre ++ (u ++ T))).drop u.length) hu
      rw [← hdecomp, hnone] at hsome
      cases hsome
    rw [show (d :: pre) ++ (u ++ T) = d :: (pre ++ (u ++ T)) from rfl]
    unfold splitFirstOcc
    rw [if_neg hcond, ih (gapClean_cons d pre _ hclean)]

/-- One guard-free encoder step on the block decomposition: the token
is replaced at its own position and the URL accumulator extended. -/
theorem encStepNG_spec (E g u T : List Char) (acc : List (List Char))
    (hu : UrlTok u) (hclean : GapClean (E ++ g) (u ++ T)) :
    encStepNG (E ++ (g ++ (u ++ T)), acc) u
      = (E ++ (g ++ (phChars (urlIdx acc u) ++ T)), dedupAppend acc u) := by
  have hsplit : E ++ (g ++ (u ++ T)) = (E ++ g) ++ (u ++ T) :=
    (List.append_assoc E g (u ++ T)).symm
  have hocc := splitFirstOcc_exact u T hu (E ++ g) hclean
  unfold encStepNG urlIdx dedupAppend
  dsimp only
  cases hf : jsFindIndex acc u with
  | some k =>
    unfold replaceFirst
    rw [hsplit, hocc]
    simp [List.append_assoc]
  | none =>
    unfold replaceFirst
    rw [hsplit, hocc]
    simp [List.append_assoc]

/-- The guard-free encoder fold over the block decomposition. -/
theorem encFold (bs : List (List Char × List Char)) : ∀ (last E : List Char)
    (acc : List (List Char)), ScanInv bs last → ECleanAll E →
    List.foldl encStepNG (E ++ glue bs last, acc) (bs.map Prod.snd)
      = (E ++ (encBlocks acc bs last).1, (encBlocks acc bs last).2) := by
  induction bs with
  | nil => intro last E acc _ _; rfl
  | cons b bs ih =>
    obtain ⟨g, u⟩ := b
    intro last E acc hinv hE
    simp only [ScanInv] at hinv
    obtain ⟨hgap, hmatch, hinv'⟩ := hinv
    have hu : UrlTok u := match_urlTok _ _ hmatch
    have hclean : GapClean (E ++ g) (u ++ glue bs last) :=
      gapClean_of_eclean_gap E g _ hE hgap
    simp only [List.map_cons, List.foldl_cons]
    rw [show E ++ glue ((g, u) :: bs) last = E ++ (g ++ (u ++ glue bs last)) by
      simp only [glue]; rw [List.append_assoc]]
    rw [encStepNG_spec E g u (glue bs last) acc hu hclean]
    have hEext : ECleanAll (E ++ (g ++ phChars (urlIdx acc u))) :=
      eclean_extend E g (urlIdx acc u) hE (gapClean_ph g u (glue bs last) hu hgap)
    have ihapp := ih last (E ++ (g ++ phChars (urlIdx acc u))) (dedupAppend acc u) hinv' hEext
    rw [show E ++ (g ++ (phChars (urlIdx acc u) ++ glue bs last))
        = (E ++ (g ++ phChars (urlIdx acc u))) ++ glue bs last by
      simp [List.append_assoc]]
    rw [ihapp]
    simp only [encBlocks]
    simp [List.append_assoc]

/-! ## C7: decoding the encoder's output -/

/-- `digitChar` and `toNat` cancel on a single digit. -/
theorem digitChar_toNat (m : Nat) (h : m < 10) : (Nat.digitChar m).toNat = 48 + m := by
  interval_cases m <;> decide

/-- Folding one more digit. -/
theorem digitsToNat_append (A : List Char) (c : Char) :
    digitsToNat (A ++ [c]) = digitsToNat A * 10 + (c.toNat - 48) := by
  simp [digitsToNat, List.foldl_append]

/-- Parsing inverts rendering (fuel-indexed). -/
theorem digitsToNat_natDecimalF (fuel : Nat) : ∀ n, n ≤ fuel →
    digitsToNat (natDecimalF fuel n) = n := by
  induction fuel with
  | zero =>
    intro n hn
    have h0 : n = 0 := by omega
    subst h0
    decide
  | succ f ih =>
    intro n hn
    unfold natDecimalF
    by_cases h10 : n < 10
    · rw [if_pos h10]
      show digitsToNat [Nat.digitChar n] = n
      show 0 * 10 + ((Nat.digitChar n).toNat - 48) = n
      rw [digitChar_toNat n h10]
      omega
    · rw [if_neg h10]
      have hdiv : n / 10 ≤ f := by
        have := Nat.div_lt_self (show 0 < n by omega) (show 1 < 10 by omega)
        omega
      rw [digitsToNat_append, ih _ hdiv, digitChar_toNat _ (Nat.mod_lt _ (by omega))]
      have := Nat.div_add_mod n 10
      omega

/-- Parsing inverts rendering. -/
theorem digitsToNat_natDecimal (n : Nat) : digitsToNat (natDecimal n) = n :=
  digitsToNat_natDecimalF n n le_rfl

/-- A rendered number is nonempty. -/
theorem natDecimal_ne_nil (n : Nat) : natDecimal n ≠ [] := by
  unfold natDecimal
  cases n with
  | zero => simp [natDecimalF]
  | succ m =>
    by_cases h : m + 1 < 10
    · simp [natDecimalF, h]
    · simp [natDecimalF, h]

/-- The placeholder-regex attempt succeeds exactly on a placeholder,
parsing back its index and consuming its full length. -/
theorem phMatchHere_ph (k : Nat) (Z : List Char) :
    phMatchHere (phChars k ++ Z) = some (k, (phChars k).length) := by
  have hform : phChars k ++ Z = lbTag ++ (natDecimal k ++ (']' :: Z)) := by
    unfold phChars
    rw [List.append_assoc, List.append_assoc]
    rfl
  have h6 : (lbTag ++ (natDecimal k ++ (']' :: Z))).take 6 = lbTag :=
    List.take_left lbTag (natDecimal k ++ (']' :: Z))
  have hd6 : (lbTag ++ (natDecimal k ++ (']' :: Z))).drop 6 = natDecimal k ++ (']' :: Z) :=
    List.drop_left lbTag (natDecimal k ++ (']' :: Z))
  have hds : (natDecimal k ++ (']' :: Z)).takeWhile isDigitChar = natDecimal k := by
    rw [takeWhile_all_append isDigitChar (natDecimal k) (']' :: Z)
      (fun c hc => natDecimal_digits k k c hc)]
    simp [List.takeWhile_cons, show isDigitChar ']' = false by decide]
  have hdrop : (lbTag ++ (natDecimal k ++ (']' :: Z))).drop (6 + (natDecimal k).length)
      = ']' :: Z := by
    rw [show (6 : Nat) + (natDecimal k).length = lbTag.length + (natDecimal k).length from rfl,
      List.drop_append]
    exact List.drop_left (natDecimal k) (']' :: Z)
  have hlen : (natDecimal k).length + 7 = (phChars k).length := by
    unfold phChars lbTag
    rw [List.length_append, List.length_append]
    simp only [List.length_cons, List.length_nil]
    omega
  rw [hform]
  unfold phMatchHere
  rw [if_pos h6]
  dsimp only
  rw [hd6, hds, if_neg (natDecimal_ne_nil k), hdrop, digitsToNat_natDecimal, hlen]
  rfl

/-- Inside a text free of `[LINK:`, followed by nothing or by a
placeholder, no position starts a placeholder match. -/
theorem phMatchHere_gap_cons (d : Char) (g' Z : List Char)
    (hno : NoOcc lbTag (d :: g'))
    (hZ : Z = [] ∨ ∃ W, Z = '[' :: W) :
    phMatchHere (d :: (g' ++ Z)) = none := by
  have hne : ¬ (d :: (g' ++ Z)).take 6 = lbTag := by
    intro h
    rw [show d :: (g' ++ Z) = (d :: g') ++ Z from rfl] at h
    by_cases hlen : 6 ≤ (d :: g').length
    · rw [List.take_append_of_le_length hlen] at h
      exact hno [] ((d :: g').drop 6)
        (by rw [List.nil_append, ← h, List.take_append_drop])
    · push_neg at hlen
      simp only [List.length_cons] at hlen
      rcases hZ with hZ | ⟨W, hW⟩
      · subst hZ
        rw [List.append_nil,
          List.take_of_length_le (show (d :: g').length ≤ 6 from by
            simp only [List.length_cons]; omega)] at h
        have := congrArg List.length h
        simp [lbTag] at this
        omega
      · subst hW
        obtain ⟨m, hm⟩ : ∃ m, 6 - (d :: g').length = m + 1 :=
          ⟨6 - (d :: g').length - 1, by simp only [List.length_cons]; omega⟩
        rw [List.take_append_eq_append_take,
          List.take_of_length_le (show (d :: g').length ≤ 6 from by
            simp only [List.length_cons]; omega),
          hm, List.take_succ_cons] at h
        have hdl : ((d :: g') ++ ('[' :: W.take m)).drop (g'.length + 1) = '[' :: W.take m :=
          List.drop_left (d :: g') ('[' :: W.take m)
        have hd := congrArg (List.drop (g'.length + 1)) h
        rw [hdl] at hd
        have hh := congrArg List.head? hd
        simp only [List.head?_cons] at hh
        have hlen2 : g'.length ≤ 4 := by omega
        rcases (by omega : g'.length = 0 ∨ g'.length = 1 ∨ g'.length = 2 ∨ g'.length = 3 ∨
            g'.length = 4) with h0 | h0 | h0 | h0 | h0 <;>
          rw [h0] at hh <;> exact absurd hh (by decide)
  unfold phMatchHere
  rw [if_neg hne]

/-- The decoder emits nothing on an empty text. -/
theorem decodeScanF_nil (links : List (List Char)) (fuel : Nat) :
    decodeScanF links fuel [] = [] := by
  cases fuel <;> rfl

/-- An occurrence in the tail is an occurrence. -/
theorem noOcc_tail (pat : List Char) (d : Char) (l : List Char)
    (h : NoOcc pat (d :: l)) : NoOcc pat l :=
  fun a b hl => h (d :: a) b (by rw [hl]; rfl)

/-- The decoder passes over a `[LINK:`-free gap verbatim. -/
theorem decodeScanF_gap (links : List (List Char)) (Z : List Char)
    (hZ : Z = [] ∨ ∃ W, Z = '[' :: W) :
    ∀ g : List Char, NoOcc lbTag g → ∀ fuel, (g ++ Z).length ≤ fuel →
    decodeScanF links fuel (g ++ Z) = g ++ decodeScanF links (fuel - g.length) Z := by
  intro g
  induction g with
  | nil => intro _ fuel _; simp
  | cons d g' ihg =>
    intro hno fuel hfuel
    cases fuel with
    | zero =>
      simp only [List.cons_append, List.length_cons] at hfuel
      omega
    | succ f =>
      rw [show (d :: g') ++ Z = d :: (g' ++ Z) from rfl]
      conv_lhs => unfold decodeScanF
      simp only [phMatchHere_gap_cons d g' Z hno hZ]
      rw [ihg (noOcc_tail lbTag d g' hno) f (by
        simp only [List.cons_append, List.length_cons] at hfuel
        omega)]
      rw [List.cons_append,
        show f + 1 - (d :: g').length = f - g'.length from by
          simp only [List.length_cons]
          omega]

/-- The decoder turns a placeholder back into its linked URL and
continues after it. -/
theorem decodeScanF_ph (accF : List (List Char)) (k : Nat) (u E₁ : List Char)
    (hk : accF[k]? = some u) (hune : ¬ u = []) :
    ∀ fuel, 1 ≤ fuel →
    decodeScanF accF fuel (phChars k ++ E₁) = u ++ decodeScanF accF (fuel - 1) E₁ := by
  intro fuel hfuel
  cases fuel with
  | zero => omega
  | succ f =>
    have hph := phMatchHere_ph k E₁
    have hsplit : phChars k ++ E₁
        = '[' :: (('L' :: 'I' :: 'N' :: 'K' :: ':' :: (natDecimal k ++ [']'])) ++ E₁) := by
      rw [phChars_eq_cons]
      rfl
    rw [hsplit]
    rw [hsplit] at hph
    conv_lhs => unfold decodeScanF
    simp only [hph]
    simp only [hk]
    rw [if_neg hune]
    have hlen : ((phChars k).length - 1)
        = ('L' :: 'I' :: 'N' :: 'K' :: ':' :: (natDecimal k ++ [']'])).length := by
      rw [phChars_eq_cons]
      simp
    rw [hlen, List.drop_left]
    simp

/-! ## C7: the URL accumulator -/

/-- A found index holds the URL searched for. -/
theorem jsFindIndex_some_get (u : List Char) : ∀ (l : List (List Char)) (k : Nat),
    jsFindIndex l u = some k → l[k]? = some u := by
  intro l
  induction l with
  | nil => intro k h; cases h
  | cons v l ih =>
    intro k h
    unfold jsFindIndex at h
    by_cases hv : v = u
    · rw [if_pos hv] at h
      injection h with hk
      subst hk
      simp [hv]
    · rw [if_neg hv] at h
      cases hrec : jsFindIndex l u with
      | none => rw [hrec] at h; cases h
      | some j =>
        rw [hrec] at h
        simp only [Option.map] at h
        injection h with hk
        subst hk
        simp only [List.getElem?_cons_succ]
        exact ih j hrec

/-- A failed index search means the URL is absent. -/
theorem jsFindIndex_none_not_mem (u : List Char) : ∀ l : List (List Char),
    jsFindIndex l u = none → ¬ u ∈ l := by
  intro l
  induction l with
  | nil => intro _ hm; simp at hm
  | cons v l ih =>
    intro h hm
    unfold jsFindIndex at h
    by_cases hv : v = u
    · rw [if_pos hv] at h; cases h
    · rw [if_neg hv] at h
      cases hrec : jsFindIndex l u with
      | some j => rw [hrec] at h; simp only [Option.map] at h; cases h
      | none =>
        rcases List.mem_cons.mp hm with hm | hm
        · exact hv hm.symm
        · exact ih hrec hm

theorem urlIdx_eq_some (acc : List (List Char)) (u : List Char) (k : Nat)
    (hf : jsFindIndex acc u = some k) : urlIdx acc u = k := by
  unfold urlIdx
  rw [hf]

theorem urlIdx_eq_none (acc : List (List Char)) (u : List Char)
    (hf : jsFindIndex acc u = none) : urlIdx acc u = acc.length := by
  unfold urlIdx
  rw [hf]

theorem dedupAppend_eq_some (acc : List (List Char)) (u : List Char) (k : Nat)
    (hf : jsFindIndex acc u = some k) : dedupAppend acc u = acc := by
  unfold dedupAppend
  rw [hf]

theorem dedupAppend_eq_none (acc : List (List Char)) (u : List Char)
    (hf : jsFindIndex acc u = none) : dedupAppend acc u = acc ++ [u] := by
  unfold dedupAppend
  rw [hf]

/-- The deduplicating append only ever extends the accumulator. -/
theorem dedupAppend_grow (acc : List (List Char)) (u : List Char) :
    ∃ e, dedupAppend acc u = acc ++ e := by
  cases hf : jsFindIndex acc u with
  | some k => exact ⟨[], by rw [dedupAppend_eq_some acc u k hf, List.append_nil]⟩
  | none => exact ⟨[u], dedupAppend_eq_none acc u hf⟩

/-- The encoder fold only ever extends the accumulator. -/
theorem encBlocks_acc_grow (bs : List (List Char × List Char)) : ∀ (last : List Char)
    (acc : List (List Char)), ∃ ext, (encBlocks acc bs last).2 = acc ++ ext := by
  induction bs with
  | nil => intro last acc; exact ⟨[], by simp [encBlocks]⟩
  | cons b bs ih =>
    obtain ⟨g, u⟩ := b
    intro last acc
    obtain ⟨e, he⟩ := dedupAppend_grow acc u
    obtain ⟨ext, hext⟩ := ih last (dedupAppend acc u)
    exact ⟨e ++ ext, by simp only [encBlocks]; rw [hext, he, List.append_assoc]⟩

/-- The index the encoder stores for a URL finds that URL again in any
extension of the stepped accumulator. -/
theorem urlIdx_lookup (acc accF : List (List Char)) (u : List Char) (ext : List (List Char))
    (hext : accF = dedupAppend acc u ++ ext) :
    accF[urlIdx acc u]? = some u := by
  cases hf : jsFindIndex acc u with
  | some k =>
    rw [urlIdx_eq_some acc u k hf]
    rw [dedupAppend_eq_some acc u k hf] at hext
    have hget : acc[k]? = some u := jsFindIndex_some_get u acc k hf
    have hlt : k < acc.length := (List.getElem?_eq_some.mp hget).1
    rw [hext, List.getElem?_append, if_pos hlt]
    exact hget
  | none =>
    rw [urlIdx_eq_none acc u hf]
    rw [dedupAppend_eq_none acc u hf] at hext
    rw [hext]
    have hlt : acc.length < (acc ++ [u]).length := by simp
    rw [List.getElem?_append, if_pos hlt]
    simp

/-! ## C7: the decode pass over the full encoded text -/

/-- Decoding the encoder's block output restores the original blocks,
provided the gaps and trailing text are `[LINK:`-free, the tokens are
URL tokens, and the link table extends the fold's accumulator. -/
theorem decode_enc (accF : List (List Char)) :
    ∀ (bs : List (List Char × List Char)) (last : List Char) (acc : List (List Char)),
    (∀ p ∈ bs, NoOcc lbTag p.1 ∧ UrlTok p.2) →
    NoOcc lbTag last →
    (∃ ext, accF = (encBlocks acc bs last).2 ++ ext) →
    ∀ fuel, (encBlocks acc bs last).1.length ≤ fuel →
    decodeScanF accF fuel (encBlocks acc bs last).1 = glue bs last := by
  intro bs
  induction bs with
  | nil =>
    intro last acc _ hlast _ fuel hfuel
    simp only [encBlocks] at hfuel
    show decodeScanF accF fuel last = last
    have hgap := decodeScanF_gap accF [] (Or.inl rfl) last hlast fuel
      (by simpa using hfuel)
    rw [List.append_nil] at hgap
    rw [hgap, decodeScanF_nil, List.append_nil]
  | cons b bs ih =>
    obtain ⟨g, u⟩ := b
    intro last acc hblocks hlast hext fuel hfuel
    have hgu := hblocks (g, u) (List.mem_cons_self _ _)
    have hu : UrlTok u := hgu.2
    have hune : u ≠ [] := by
      obtain ⟨v, hv⟩ := urlTok_cons u hu
      rw [hv]; simp
    have henc : (encBlocks acc ((g, u) :: bs) last).1
        = g ++ (phChars (urlIdx acc u) ++ (encBlocks (dedupAppend acc u) bs last).1) := by
      simp only [encBlocks]
      rw [List.append_assoc]
    have henc2 : (encBlocks acc ((g, u) :: bs) last).2
        = (encBlocks (dedupAppend acc u) bs last).2 := by
      simp only [encBlocks]
    obtain ⟨ext, hextv⟩ := hext
    rw [henc2] at hextv
    obtain ⟨ext2, hext2⟩ := encBlocks_acc_grow bs last (dedupAppend acc u)
    have hk : accF[urlIdx acc u]? = some u :=
      urlIdx_lookup acc accF u (ext2 ++ ext)
        (by rw [hextv, hext2, List.append_assoc])
    rw [henc] at hfuel ⊢
    have hph1 : 1 ≤ (phChars (urlIdx acc u)).length := by
      rw [phChars_eq_cons]; simp
    simp only [List.length_append] at hfuel
    rw [decodeScanF_gap accF
      (phChars (urlIdx acc u) ++ (encBlocks (dedupAppend acc u) bs last).1)
      (Or.inr ⟨('L' :: 'I' :: 'N' :: 'K' :: ':' :: (natDecimal (urlIdx acc u) ++ [']']))
        ++ (encBlocks (dedupAppend acc u) bs last).1, by rw [phChars_eq_cons]; rfl⟩)
      g hgu.1 fuel (by simp only [List.length_append]; omega)]
    rw [decodeScanF_ph accF (urlIdx acc u) u (encBlocks (dedupAppend acc u) bs last).1 hk hune
      (fuel - g.length) (by omega)]
    rw [ih last (dedupAppend acc u) (fun p hp => hblocks p (List.mem_cons_of_mem _ hp)) hlast
      ⟨ext, hextv⟩ (fuel - g.length - 1) (by omega)]
    simp only [glue]
    rw [List.append_assoc]

/-! ## C7: occurrence-freedom of the scan's pieces -/

/-- `NoOcc` restricts to an inner factor. -/
theorem noOcc_of_decomp (pat t X g Y : List Char) (hno : NoOcc pat t)
    (ht : t = X ++ (g ++ Y)) : NoOcc pat g := by
  intro a b hg
  exact hno (X ++ a) (b ++ Y) (by rw [ht, hg]; simp [List.append_assoc])

/-- Every block gap is a factor of the glued text. -/
theorem glue_gap_decomp : ∀ (bs : List (List Char × List Char)) (last g u : List Char),
    (g, u) ∈ bs → ∃ X Y, glue bs last = X ++ (g ++ Y) := by
  intro bs
  induction bs with
  | nil => intro last g u h; simp at h
  | cons b bs ih =>
    obtain ⟨g', u'⟩ := b
    intro last g u h
    rcases List.mem_cons.mp h with h | h
    · have h1 : g = g' ∧ u = u' := by
        simpa [Prod.ext_iff] using h
      refine ⟨[], u' ++ glue bs last, ?_⟩
      rw [h1.1]
      simp [glue, List.append_assoc]
    · obtain ⟨X, Y, hXY⟩ := ih last g u h
      exact ⟨g' ++ u' ++ X, Y, by simp only [glue]; rw [hXY]; simp [List.append_assoc]⟩

/-- The trailing text is a suffix of the glued text. -/
theorem glue_last_decomp : ∀ (bs : List (List Char × List Char)) (last : List Char),
    ∃ X, glue bs last = X ++ last := by
  intro bs
  induction bs with
  | nil => intro last; exact ⟨[], rfl⟩
  | cons b bs ih =>
    obtain ⟨g, u⟩ := b
    intro last
    obtain ⟨X, hX⟩ := ih last
    exact ⟨g ++ u ++ X, by simp only [glue]; rw [hX]; simp [List.append_assoc]⟩

/-! ## C7: the accumulator holds each distinct URL once -/

/-- The deduplicating fold keeps the accumulator duplicate-free and
collects exactly the URLs seen. -/
theorem dedupFold_spec (toks : List (List Char)) : ∀ acc : List (List Char), acc.Nodup →
    ((toks.foldl dedupAppend acc).Nodup ∧
      ∀ v, v ∈ toks.foldl dedupAppend acc ↔ v ∈ acc ∨ v ∈ toks) := by
  induction toks with
  | nil =>
    intro acc h
    refine ⟨h, fun v => ?_⟩
    simp
  | cons u toks ih =>
    intro acc hacc
    have hstep : (dedupAppend acc u).Nodup ∧
        ∀ v, v ∈ dedupAppend acc u ↔ v ∈ acc ∨ v = u := by
      cases hf : jsFindIndex acc u with
      | some j =>
        rw [dedupAppend_eq_some acc u j hf]
        have hmem : u ∈ acc := List.getElem?_mem (jsFindIndex_some_get u acc j hf)
        refine ⟨hacc, fun v => ⟨Or.inl, fun h => ?_⟩⟩
        rcases h with h | h
        · exact h
        · rw [h]; exact hmem
      | none =>
        rw [dedupAppend_eq_none acc u hf]
        have hnm := jsFindIndex_none_not_mem u acc hf
        constructor
        · rw [List.nodup_append]
          refine ⟨hacc, List.nodup_singleton u, ?_⟩
          intro a ha hb
          simp only [List.mem_singleton] at hb
          subst hb
          exact hnm ha
        · intro v
          simp [List.mem_append]
    obtain ⟨hn, hm⟩ := hstep
    obtain ⟨ihn, ihm⟩ := ih (dedupAppend acc u) hn
    refine ⟨ihn, fun v => ?_⟩
    simp only [List.foldl_cons]
    rw [ihm v, hm v, List.mem_cons]
    tauto

/-- The encoder's final accumulator is the deduplicating fold over the
token list. -/
theorem encBlocks_acc (bs : List (List Char × List Char)) : ∀ (last : List Char)
    (acc : List (List Char)),
    (encBlocks acc bs last).2 = (bs.map Prod.snd).foldl dedupAppend acc := by
  induction bs with
  | nil => intro last acc; rfl
  | cons b bs ih =>
    obtain ⟨g, u⟩ := b
    intro last acc
    simp only [encBlocks, List.map_cons, List.foldl_cons]
    exact ih last (dedupAppend acc u)

/-- The deduplicated URL list counts the distinct URLs. -/
theorem dedupFold_length (toks : List (List Char)) :
    (toks.foldl dedupAppend []).length = toks.toFinset.card := by
  obtain ⟨hn, hm⟩ := dedupFold_spec toks [] List.nodup_nil
  have hset : (toks.foldl dedupAppend []).toFinset = toks.toFinset := by
    ext v
    simp only [List.mem_toFinset]
    rw [hm v]
    simp
  rw [← List.toFinset_card_of_nodup hn, hset]

/-- Every token of an invariant-satisfying block list is a URL token. -/
theorem scanInv_mem_urlTok : ∀ (bs : List (List Char × List Char)) (last : List Char),
    ScanInv bs last → ∀ p ∈ bs, UrlTok p.2 := by
  intro bs
  induction bs with
  | nil => intro last _ p hp; simp at hp
  | cons b bs ih =>
    obtain ⟨g, u⟩ := b
    intro last hinv p hp
    simp only [ScanInv] at hinv
    obtain ⟨-, hmatch, hinv'⟩ := hinv
    rcases List.mem_cons.mp hp with hp | hp
    · rw [hp]
      exact match_urlTok _ _ hmatch
    · exact ih last hinv' p hp

/-- C7: for every text that contains no pre-existing `[LINK:`
placeholder syntax and in which no matched URL is a substring of
another distinct matched URL, decoding the encoder's output with the
encoder's link table (`renderPlainTextWithUrls` after
`detectAndExtractLinks`) reproduces the text exactly, and the link
table has exactly one entry per distinct URL of the text, repeated
occurrences sharing one entry. -/
theorem claim7_round_trip (t : String)
    (h1 : splitFirstOcc lbTag t.toList = none)
    (h2 : noSubPairs ((urlMatches t.toList).map Prod.snd) = true) :
    renderPlainTextWithUrls (detectAndExtractLinks t).processedText
        (detectAndExtractLinks t).links = t ∧
    (detectAndExtractLinks t).links.length
      = ((urlMatches t.toList).map Prod.snd).toFinset.card := by
  have hno : NoOcc lbTag t.toList := noOcc_of_none lbTag t.toList h1
  have hglue := glue_scanBlocks t.toList.length t.toList le_rfl
  have hinv := scanInv_scanBlocks t.toList.length t.toList le_rfl
  have htoks : (urlMatches t.toList).map Prod.snd
      = (scanBlocksF t.toList.length t.toList).1.map Prod.snd :=
    scan_tokens t.toList.length t.toList 0
  have hcore : detectCore t.toList
      = ((encBlocks [] (scanBlocksF t.toList.length t.toList).1
            (scanBlocksF t.toList.length t.toList).2).1,
         (encBlocks [] (scanBlocksF t.toList.length t.toList).1
            (scanBlocksF t.toList.length t.toList).2).2) := by
    have henc := encFold (scanBlocksF t.toList.length t.toList).1
      (scanBlocksF t.toList.length t.toList).2 [] [] hinv eclean_nil
    rw [List.nil_append, List.nil_append, hglue] at henc
    unfold detectCore
    rw [foldl_guard_free t.toList hno (urlMatches t.toList) (t.toList, []), htoks]
    exact henc
  have hPT : (detectAndExtractLinks t).processedText
      = (encBlocks [] (scanBlocksF t.toList.length t.toList).1
          (scanBlocksF t.toList.length t.toList).2).1.asString := by
    show (detectCore t.toList).1.asString = _
    rw [hcore]
  have hLK : (detectAndExtractLinks t).links
      = (encBlocks [] (scanBlocksF t.toList.length t.toList).1
          (scanBlocksF t.toList.length t.toList).2).2.map
          (fun u => { url := u.asString, text := u.asString }) := by
    show (detectCore t.toList).2.map _ = _
    rw [hcore]
  have hcount : (detectAndExtractLinks t).links.length
      = ((urlMatches t.toList).map Prod.snd).toFinset.card := by
    rw [hLK, List.length_map, encBlocks_acc, ← htoks, dedupFold_length]
  refine ⟨?_, hcount⟩
  cases hbs : (scanBlocksF t.toList.length t.toList).1 with
  | nil =>
    rw [hbs] at hPT hLK hglue
    simp only [glue] at hglue
    simp only [encBlocks] at hPT hLK
    rw [hglue] at hPT
    simp only [List.map_nil] at hLK
    rw [hPT, hLK]
    unfold renderPlainTextWithUrls
    by_cases ht0 : t.toList.asString = ""
    · rw [if_pos ht0]
      exact ht0.symm
    · rw [if_neg ht0, if_pos (show ([] : List Link).length = 0 from rfl)]
      rfl
  | cons b bs' =>
    obtain ⟨g, u⟩ := b
    rw [hbs] at hPT hLK hglue hinv
    have hblocks : ∀ p ∈ (g, u) :: bs', NoOcc lbTag p.1 ∧ UrlTok p.2 := by
      intro p hp
      refine ⟨?_, scanInv_mem_urlTok _ _ hinv p hp⟩
      obtain ⟨X, Y, hXY⟩ := glue_gap_decomp ((g, u) :: bs')
        (scanBlocksF t.toList.length t.toList).2 p.1 p.2
        (by rw [Prod.mk.eta]; exact hp)
      exact noOcc_of_decomp lbTag t.toList X p.1 Y hno (by rw [← hglue, hXY])
    have hlastno : NoOcc lbTag (scanBlocksF t.toList.length t.toList).2 := by
      obtain ⟨X, hX⟩ := glue_last_decomp ((g, u) :: bs')
        (scanBlocksF t.toList.length t.toList).2
      refine noOcc_of_decomp lbTag t.toList X _ [] hno ?_
      conv_lhs => rw [← hglue]
      rw [hX, List.append_nil]
    have hdec := decode_enc
      ((encBlocks [] ((g, u) :: bs') (scanBlocksF t.toList.length t.toList).2).2)
      ((g, u) :: bs') (scanBlocksF t.toList.length t.toList).2 []
      hblocks hlastno ⟨[], (List.append_nil _).symm⟩
      (encBlocks [] ((g, u) :: bs') (scanBlocksF t.toList.length t.toList).2).1.length le_rfl
    have hp1 : 1 ≤ (phChars (urlIdx [] u)).length := by
      rw [phChars_eq_cons]; simp
    have hENCne :
        (encBlocks [] ((g, u) :: bs') (scanBlocksF t.toList.length t.toList).2).1 ≠ [] := by
      intro hc
      have hl := congrArg List.length hc
      simp only [encBlocks, List.length_append, List.length_nil] at hl
      omega
    have hPTne : ¬ (detectAndExtractLinks t).processedText = "" := by
      rw [hPT]
      intro hc
      exact hENCne (congrArg String.toList hc)
    have haccne :
        (encBlocks [] ((g, u) :: bs') (scanBlocksF t.toList.length t.toList).2).2 ≠ [] := by
      obtain ⟨ext, hext⟩ := encBlocks_acc_grow bs'
        (scanBlocksF t.toList.length t.toList).2 (dedupAppend [] u)
      intro hc
      rw [show (encBlocks [] ((g, u) :: bs')
            (scanBlocksF t.toList.length t.toList).2).2
          = (encBlocks (dedupAppend [] u) bs'
            (scanBlocksF t.toList.length t.toList).2).2 from by simp only [encBlocks]] at hc
      rw [hext, dedupAppend_eq_none [] u rfl] at hc
      simp at hc
    have hlenne : ¬ (detectAndExtractLinks t).links.length = 0 := by
      rw [hLK, List.length_map]
      intro hc
      exact haccne (List.length_eq_zero.mp hc)
    unfold renderPlainTextWithUrls
    rw [if_neg hPTne, if_neg hlenne, hLK, hPT, List.map_map]
    rw [show ((fun k : Link => k.url.toList) ∘ (fun v : List Char =>
        ({ url := v.asString, text := v.asString } : Link))) = id from rfl, List.map_id]
    rw [show ((encBlocks [] ((g, u) :: bs')
          (scanBlocksF t.toList.length t.toList).2).1.asString).toList
        = (encBlocks [] ((g, u) :: bs')
          (scanBlocksF t.toList.length t.toList).2).1 from rfl]
    unfold decodeScan
    rw [hdec, hglue]
    rfl

/-- C7 witness: a text with three URL occurrences — two of the same URL
and one other, none a substring of another — round-trips through
encode/decode and yields a two-entry link table. -/
theorem claim7_round_trip_witness :
    splitFirstOcc lbTag ("go https://a.io now http://b.io end https://a.io").toList = none ∧
    noSubPairs ((urlMatches ("go https://a.io now http://b.io end https://a.io").toList).map
      Prod.snd) = true ∧
    (renderPlainTextWithUrls
        (detectAndExtractLinks "go https://a.io now http://b.io end https://a.io").processedText
        (detectAndExtractLinks "go https://a.io now http://b.io end https://a.io").links
      = "go https://a.io now http://b.io end https://a.io" ∧
    (detectAndExtractLinks "go https://a.io now http://b.io end https://a.io").links.length
      = ((urlMatches ("go https://a.io now http://b.io end https://a.io").toList).map
          Prod.snd).toFinset.card) :=
  ⟨by decide, by decide,
    claim7_round_trip "go https://a.io now http://b.io end https://a.io" (by decide) (by decide)⟩

end Raivcoo
